import Mathlib

/-!
# PolyHook 2 — `sources/ADetour.cpp`

A shallow embedding of the prologue relocation engine of `PLH::Detour`
(`calcNearestSz`, `followJmp`, `expandProlSelfJmps`, `buildRelocationList`,
`writeNop`) and of the hook life cycle (`unHook`, `reHook`), together with the
properties its specification states about them.

Conventions of the embedding.

* `uint64_t` values are natural numbers; every addition or subtraction of the
  source that can leave the range `[0, 2^64)` is reduced modulo `2^64`
  explicitly.  The one exception is the running byte count of `calcNearestSz`:
  every instruction object stores its `size()` bytes in memory, so the sizes of
  the instructions of one stream add up to less than `2^64` and that sum
  cannot wrap.
* `std::vector<Instruction>` (`insts_t`) is `List Instruction`.
* Reference parameters that the source writes (`prolOvrwEndOffset`, `prol`,
  `minProlSz`, `roundProlSz`, the three classification lists) are returned as
  part of the result.
* The disassembler `m_disasm` is an explicit parameter; the members of the
  detour object and the memory it writes form the state `Detour`.
* Loops and recursions whose bound is not structural take a fuel argument; for
  each of them a lemma shows that the fuel handed over is never used up.
-/

namespace PLH

/-- Modelled from the spec: the `Instruction` class lives in a header that is
not part of the sources at hand.  Following the data model of the spec
(section 3) an instruction carries its absolute address, its size in bytes,
the size of its displacement field (in bytes, as `getDispSize()` is used by
`buildRelocationList`, which multiplies it by 8), its destination address and
the four flags the relocation engine queries. -/
structure Instruction where
  address : Nat
  size : Nat
  dispSize : Nat
  destination : Nat
  isBranching : Bool
  isCalling : Bool
  isIndirect : Bool
  hasDisplacement : Bool
deriving DecidableEq, Repr

/-- The type `insts_t` of the source. -/
abbrev insts_t := List Instruction

/-- Modelled from the spec: the disassembler collaborator (section 6), reduced
to the queries `ADetour.cpp` makes: `isPadBytes`, `isFuncEnd`, the branch map
(`getBranchMap()`, a `std::map` from a target address to the instructions
branching to it; `none` is `find(..) == end()`) and `disassemble`. -/
structure Disassembler where
  isPadBytes : Instruction → Bool
  isFuncEnd : Instruction → Bool
  getBranchMap : Nat → Option insts_t
  disassemble : Nat → Nat → Nat → insts_t

/-- The modulus of `uint64_t` arithmetic. -/
def U64 : Nat := 2 ^ 64

/-- Total byte size of an instruction sequence. -/
def totalSize (insts : insts_t) : Nat := (insts.map Instruction.size).sum

/-! ## `calcNearestSz` (lines 5-34) -/

/-- The `for (auto inst : functionInsts)` loop of `calcNearestSz` (lines 13-26).
The arguments after the remaining stream are the loop state on entry of an
iteration: `prolLen`, `instructionsInRange` and `endHit`.  The result is the
state of `prolLen` and `instructionsInRange` when the loop is left. -/
def calcNearestSzLoop (disasm : Disassembler) (prolOvrwStartOffset : Nat) :
    insts_t → Nat → insts_t → Bool → Nat × insts_t
  | [], prolLen, instructionsInRange, _ => (prolLen, instructionsInRange)
  | inst :: rest, prolLen, instructionsInRange, endHit =>
    let prolLen := prolLen + inst.size
    let instructionsInRange := instructionsInRange ++ [inst]
    -- only safe to overwrite pad bytes once end is hit
    if endHit && !disasm.isPadBytes inst then
      (prolLen, instructionsInRange)
    else
      let endHit := if disasm.isFuncEnd inst then true else endHit
      if prolLen ≥ prolOvrwStartOffset then
        (prolLen, instructionsInRange)
      else
        calcNearestSzLoop disasm prolOvrwStartOffset rest prolLen instructionsInRange endHit

/-- `PLH::Detour::calcNearestSz`.  The first component is the returned optional
window, the second the value written to `prolOvrwEndOffset`. -/
def calcNearestSz (disasm : Disassembler) (functionInsts : insts_t)
    (prolOvrwStartOffset : Nat) : Option insts_t × Nat :=
  let r := calcNearestSzLoop disasm prolOvrwStartOffset functionInsts 0 [] false
  let prolOvrwEndOffset := r.1
  if r.1 ≥ prolOvrwStartOffset then
    (some r.2, prolOvrwEndOffset)
  else
    (none, prolOvrwEndOffset)

/-! ## `writeNop` (lines 63-95) -/

/-- Process memory: the byte stored at every address. -/
abbrev Memory := Nat → Nat

/-- Modelled from the spec: `mem_copy(dest, src, size)` is a method of the
memory accessor, declared outside the sources at hand; section 6 of the spec
describes it as the raw byte copy into a target address.  It stores the bytes
`src` at `dest`, `dest + 1`, ... and touches nothing else. -/
def mem_copy (mem : Memory) (dest : Nat) (src : List Nat) : Memory :=
  fun a => if dest ≤ a ∧ a < dest + src.length then src.getD (a - dest) 0 else mem a

/-- `PLH::Detour::writeNop`.  `multi_nop = 0x9066` is copied from its object
representation, which on the little-endian targets of the library is the byte
`0x66` followed by the byte `0x90`.  `size` is a `uint32_t`, `fat` and `i` are
`uint64_t`, so `i * 2` and `fat * 2` stay below `2^32`; the additions to `base`
are `uint64_t` additions. -/
def writeNop (mem : Memory) (base : Nat) (size : Nat) : Memory :=
  if size ≥ 2 then
    let fat := size / 2
    let leftOver : Bool := size % 2 != 0
    let mem := (List.range fat).foldl
      (fun mem i => mem_copy mem ((base + i * 2) % U64) [0x66, 0x90]) mem
    if leftOver then
      mem_copy mem ((base + fat * 2) % U64) [0x90]
    else
      mem
  else if size = 1 then
    mem_copy mem base [0x90]
  else
    mem

/-- The bytes of `mem` at `base`, `base + 1`, ..., `base + n - 1`. -/
def readBytes (mem : Memory) (base : Nat) (n : Nat) : List Nat :=
  (List.range n).map (fun k => mem (base + k))

/-! ## `expandProlSelfJmps` (lines 97-129) -/

/-- The three reference parameters `prol`, `minProlSz` and `roundProlSz` of
`expandProlSelfJmps`. -/
structure ProlState where
  prol : insts_t
  minProlSz : Nat
  roundProlSz : Nat
deriving DecidableEq, Repr

/-- The inner loop `for (const auto& src : srcs)` (lines 113-117): `maxAddr`
after the loop.  `src.getAddress() + src.size()` is a `uint64_t` sum. -/
def updateMaxAddr (srcs : insts_t) (maxAddr : Nat) : Nat :=
  srcs.foldl
    (fun maxAddr src =>
      let srcEndAddr := (src.address + src.size) % U64
      if srcEndAddr > maxAddr then srcEndAddr else maxAddr)
    maxAddr

/-- The `uint64_t` subtraction `maxAddr - prolStart` of line 119. -/
def subU64 (a b : Nat) : Nat := (a % U64 + (U64 - b % U64)) % U64

/-- The loop `for (size_t i = 0; i < prol.size(); i++)` of `expandProlSelfJmps`
(lines 105-126) from the start of iteration `i` on, with `maxAddr` and the
reference parameters as loop state.  `fuel` bounds the number of loop tests
still allowed; the result is `none` only when the fuel runs out, and otherwise
the returned boolean with the final reference parameters. -/
def expandLoop (disasm : Disassembler) (func : insts_t) (prolStart : Nat) :
    Nat → Nat → Nat → ProlState → Option (Bool × ProlState)
  | 0, _, _, _ => none
  | fuel + 1, i, maxAddr, st =>
    if h : i < st.prol.length then
      let inst := st.prol[i]
      -- is there a jump pointing at the current instruction?
      match disasm.getBranchMap inst.address with
      | none => expandLoop disasm func prolStart fuel (i + 1) maxAddr st
      | some srcs =>
        let maxAddr := updateMaxAddr srcs maxAddr
        let minProlSz := subU64 maxAddr prolStart
        -- expand prol by one entry size, may fail if prol too small
        match calcNearestSz disasm func minProlSz with
        | (none, roundProlSz) =>
          some (false, { st with minProlSz := minProlSz, roundProlSz := roundProlSz })
        | (some prol, roundProlSz) =>
          expandLoop disasm func prolStart fuel (i + 1) maxAddr
            { prol := prol, minProlSz := minProlSz, roundProlSz := roundProlSz }
    else
      some (true, st)

/-- `PLH::Detour::expandProlSelfJmps`.  `prol.front()` of an empty vector is
undefined, which is the result `none`.  The loop index never exceeds the
longer of `prol` and `func`, so the fuel handed to the loop is never used up
(`expandProlSelfJmps_isSome`). -/
def expandProlSelfJmps (disasm : Disassembler) (prol func : insts_t)
    (minProlSz roundProlSz : Nat) : Option (Bool × ProlState) :=
  match prol with
  | [] => none
  | first :: _ =>
    let prolStart := first.address
    expandLoop disasm func prolStart (prol.length + func.length + 1) 0 0
      { prol := prol, minProlSz := minProlSz, roundProlSz := roundProlSz }

/-- Consecutive instructions of a stream follow each other without gap or
overlap, the first one at `start`. -/
def Contiguous : Nat → insts_t → Prop
  | _, [] => True
  | start, inst :: rest => inst.address = start ∧ Contiguous (start + inst.size) rest

instance (start : Nat) (l : insts_t) : Decidable (Contiguous start l) := by
  induction l generalizing start with
  | nil => exact isTrue trivial
  | cons i r ih => unfold Contiguous; exact instDecidableAnd

/-! ## `buildRelocationList` (lines 131-192) -/

/-- Number of significant bits of a natural number (`0` for `0`). -/
def bitLengthAux : Nat → Nat → Nat
  | 0, _ => 0
  | fuel + 1, n => if n = 0 then 0 else bitLengthAux fuel (n / 2) + 1

/-- Number of significant bits of a natural number (`0` for `0`). -/
def bitLength (n : Nat) : Nat := bitLengthAux n n

/-- The IEEE-754 binary64 value nearest to the natural number `n`, ties to the
even significand (the default rounding mode); binary64 has a 53-bit
significand.  Exact for every `n` below `2^1024`. -/
def roundToDouble (n : Nat) : Nat :=
  let len := bitLength n
  if len ≤ 53 then n
  else
    let sh := len - 53
    let q := n / 2 ^ sh
    let r := n % 2 ^ sh
    let half := 2 ^ (sh - 1)
    let q := if r > half ∨ (r = half ∧ q % 2 = 1) then q + 1 else q
    q * 2 ^ sh

/-- The value `maxInstDisp` of lines 161-162 (and 173-174):
`dispSzBits = (uint8_t)inst.getDispSize() * 8` and
`maxInstDisp = (uint64_t)(std::pow(2, dispSzBits - 1) - 1.0)`, evaluated in
binary64 as on the 64-bit targets of the library.

* `std::pow(2, k)` is exact for an integer `k`.
* For `dispSzBits = 0` the double is `0.5 - 1.0 = -0.5`, which the conversion
  truncates to `0`.
* Otherwise the subtraction yields the binary64 nearest to `2^(dispSzBits-1) - 1`.
* The conversion to `uint64_t` is the identity on the integral values below
  `2^64`.  For displacement sizes of 9 bytes and more the double is `2^71` or
  larger and the conversion is undefined in C++; the embedding then keeps the
  unconverted value, and no statement below depends on that case. -/
def maxInstDisp (dispSize : Nat) : Nat :=
  let dispSzBits := (dispSize % 256) * 8
  if dispSzBits = 0 then 0
  else roundToDouble (2 ^ (dispSzBits - 1) - 1)

/-- The value `(uint64_t)std::llabs(delta)` of lines 163 and 175.  For
`delta = INT64_MIN` the C library negates with wrap-around and the cast gives
`2^63`, which is the absolute value as well. -/
def absDelta (delta : Int) : Nat := delta.natAbs % U64

/-- The three output lists of `buildRelocationList`. -/
structure RelocLists where
  instsNeedingEntry : insts_t
  instsNeedingReloc : insts_t
  instsNeedingTranslation : insts_t
deriving DecidableEq, Repr

/-- The test of lines 151-153: a branch whose destination is below `prolStart`
or above `prolStart + roundProlSz` (a `uint64_t` sum). -/
def branchesOut (prolStart roundProlSz : Nat) (inst : Instruction) : Bool :=
  inst.isBranching &&
    (decide (inst.destination < prolStart) ||
     decide (inst.destination > (prolStart + roundProlSz) % U64))

/-- One iteration of the loop `for (auto& inst : prologue)` of
`buildRelocationList` (lines 146-190). -/
def classify (prolStart roundProlSz : Nat) (delta : Int) (lists : RelocLists)
    (inst : Instruction) : RelocLists :=
  if !inst.hasDisplacement then
    lists -- Skip instructions that don't have relative displacement
  else
    -- types that change control flow
    let lists :=
      if branchesOut prolStart roundProlSz inst then
        -- indirect-call always needs an entry (only a dest-holder)
        if inst.isCalling && inst.isIndirect then
          { lists with instsNeedingEntry := lists.instsNeedingEntry ++ [inst] }
        else
          -- can inst just be re-encoded or do we need a tbl entry
          if absDelta delta > maxInstDisp inst.dispSize then
            { lists with instsNeedingEntry := lists.instsNeedingEntry ++ [inst] }
          else
            { lists with instsNeedingReloc := lists.instsNeedingReloc ++ [inst] }
      else lists
    -- data operations (duplicated because clearer)
    if !inst.isBranching then
      if absDelta delta > maxInstDisp inst.dispSize then
        { lists with instsNeedingTranslation := lists.instsNeedingTranslation ++ [inst] }
      else
        { lists with instsNeedingReloc := lists.instsNeedingReloc ++ [inst] }
    else lists

/-- `PLH::Detour::buildRelocationList`, started on the given contents of the
three output lists.  `prologue.front()` of an empty vector is undefined (the
source asserts `prologue.size() > 0`), which is the result `none`. -/
def buildRelocationList (prologue : insts_t) (roundProlSz : Nat) (delta : Int)
    (instsNeedingEntry instsNeedingReloc instsNeedingTranslation : insts_t) :
    Option RelocLists :=
  match prologue with
  | [] => none
  | first :: _ =>
    let prolStart := first.address
    some (prologue.foldl (classify prolStart roundProlSz delta)
      { instsNeedingEntry := instsNeedingEntry, instsNeedingReloc := instsNeedingReloc,
        instsNeedingTranslation := instsNeedingTranslation })

/-- The instructions `buildRelocationList` appends to `instsNeedingEntry`:
those with displacement that branch out of the window and are an indirect call
or have a displacement field too narrow for `delta`. -/
def needsEntry (prolStart roundProlSz : Nat) (delta : Int) (inst : Instruction) : Bool :=
  inst.hasDisplacement && branchesOut prolStart roundProlSz inst &&
    ((inst.isCalling && inst.isIndirect) ||
      decide (absDelta delta > maxInstDisp inst.dispSize))

/-- The instructions `buildRelocationList` appends to `instsNeedingReloc`. -/
def needsReloc (prolStart roundProlSz : Nat) (delta : Int) (inst : Instruction) : Bool :=
  inst.hasDisplacement && !decide (absDelta delta > maxInstDisp inst.dispSize) &&
    ((branchesOut prolStart roundProlSz inst && !(inst.isCalling && inst.isIndirect)) ||
      !inst.isBranching)

/-- The instructions `buildRelocationList` appends to `instsNeedingTranslation`. -/
def needsTranslation (delta : Int) (inst : Instruction) : Bool :=
  inst.hasDisplacement && !inst.isBranching &&
    decide (absDelta delta > maxInstDisp inst.dispSize)

/-! ### Concrete data used by the examples -/

/-- An instruction without displacement: one byte at `addr` (a `ret`, a
`push`, ...). -/
def plainInst (addr sz : Nat) : Instruction :=
  { address := addr, size := sz, dispSize := 0, destination := 0,
    isBranching := false, isCalling := false, isIndirect := false,
    hasDisplacement := false }

/-- A disassembler for the examples: an instruction ends a function when it is
the one-byte instruction at `0x1000`, padding is any instruction at or above
`0x2000`, and the branch map is empty. -/
def exampleDisasm : Disassembler :=
  { isPadBytes := fun i => decide (0x2000 ≤ i.address),
    isFuncEnd := fun i => decide (i.address = 0x1000),
    getBranchMap := fun _ => none,
    disassemble := fun _ _ _ => [] }

/-- A direct jump with a displacement field of `dispSz` bytes. -/
def jmpInst (addr sz dispSz dest : Nat) : Instruction :=
  { address := addr, size := sz, dispSize := dispSz, destination := dest,
    isBranching := true, isCalling := false, isIndirect := false,
    hasDisplacement := true }

/-- An indirect call through a memory operand (`call [rip + disp32]`); `dest`
is the dereferenced destination. -/
def indirectCall (addr dest : Nat) : Instruction :=
  { address := addr, size := 6, dispSize := 4, destination := dest,
    isBranching := true, isCalling := true, isIndirect := true,
    hasDisplacement := true }

/-- An instruction-pointer relative data access (`lea rcx, [rip + disp]`) with
a displacement field of `dispSz` bytes. -/
def dataInst (addr sz dispSz dest : Nat) : Instruction :=
  { address := addr, size := sz, dispSize := dispSz, destination := dest,
    isBranching := false, isCalling := false, isIndirect := false,
    hasDisplacement := true }

/-- A function of four instructions at `0x4000` whose second instruction jumps
back to the first one. -/
def loopFunc : insts_t :=
  [plainInst 0x4000 1, jmpInst 0x4001 2 1 0x4000, plainInst 0x4003 3, plainInst 0x4006 4]

/-- The disassembler state after decoding `loopFunc`: the branch map lists the
jump at `0x4001` as the one source of the target `0x4000`. -/
def loopDisasm : Disassembler :=
  { isPadBytes := fun _ => false,
    isFuncEnd := fun _ => false,
    getBranchMap := fun a => if a = 0x4000 then some [jmpInst 0x4001 2 1 0x4000] else none,
    disassemble := fun _ _ _ => [] }

/-- A function of five instructions at `0x5000` whose fourth instruction jumps
back to the second one. -/
def backJmpFunc : insts_t :=
  [plainInst 0x5000 1, plainInst 0x5001 2, plainInst 0x5003 3, jmpInst 0x5006 2 1 0x5001,
    plainInst 0x5008 1]

/-- The disassembler state after decoding `backJmpFunc`: the branch map lists
the jump at `0x5006` as the one source of the target `0x5001`. -/
def backJmpDisasm : Disassembler :=
  { isPadBytes := fun _ => false,
    isFuncEnd := fun _ => false,
    getBranchMap := fun a => if a = 0x5001 then some [jmpInst 0x5006 2 1 0x5001] else none,
    disassemble := fun _ _ _ => [] }

/-! ## `followJmp` (lines 36-61) -/

/-- What `followJmp` leaves behind: the returned boolean, the reference
parameter `functionInsts` on return and, as a ghost counter that the source
does not compute, the number of jumps followed (calls of `disassemble`). -/
structure FollowResult where
  ok : Bool
  functionInsts : insts_t
  jumps : Nat
deriving DecidableEq, Repr

/-- The recursion of `PLH::Detour::followJmp`.  `fuel` bounds the number of
calls still allowed and `jumps` counts the jumps followed so far; the result is
`none` only when the fuel runs out.  `curDepth` and `maxDepth` are `uint8_t`;
`curDepth + 1` is formed only after the test `curDepth >= maxDepth` failed, so
it is at most `maxDepth` and cannot wrap.  `dest + 100` is a `uint64_t` sum. -/
def followJmpAux (disasm : Disassembler) (maxDepth : Nat) :
    Nat → insts_t → Nat → Nat → Option FollowResult
  | 0, _, _, _ => none
  | fuel + 1, functionInsts, curDepth, jumps =>
    match functionInsts with
    | [] =>
      -- Couldn't decompile instructions at followed jmp
      some { ok := false, functionInsts := functionInsts, jumps := jumps }
    | front :: _ =>
      if curDepth ≥ maxDepth then
        -- Prologue jmp resolution hit max depth, prologue too deep
        some { ok := false, functionInsts := functionInsts, jumps := jumps }
      else if !front.isBranching then
        -- not a branching instruction, no resolution needed
        some { ok := true, functionInsts := functionInsts, jumps := jumps }
      else if !front.hasDisplacement then
        -- might be a mem type like jmp rax, not supported
        some { ok := false, functionInsts := functionInsts, jumps := jumps }
      else
        let dest := front.destination
        followJmpAux disasm maxDepth fuel
          (disasm.disassemble dest dest ((dest + 100) % U64)) (curDepth + 1) (jumps + 1)

/-- `PLH::Detour::followJmp`.  Every recursive call raises `curDepth`, and a
call with `curDepth >= maxDepth` returns at once, so `maxDepth - curDepth + 1`
calls are enough (`followJmp_isSome`). -/
def followJmp (disasm : Disassembler) (functionInsts : insts_t)
    (curDepth maxDepth : Nat) : Option FollowResult :=
  followJmpAux disasm maxDepth (maxDepth - curDepth + 1) functionInsts curDepth 0

/-- The stream `followJmp` looks at after following `k` jumps from `start`:
each step disassembles at the destination of the first instruction of the
previous stream. -/
def followedStream (disasm : Disassembler) (start : insts_t) : Nat → insts_t
  | 0 => start
  | k + 1 =>
    match followedStream disasm start k with
    | [] => []
    | front :: _ =>
      disasm.disassemble front.destination front.destination
        ((front.destination + 100) % U64)

/-! ## `unHook` and `reHook` (lines 194-227) -/

/-- The members of `PLH::Detour` that `unHook` and `reHook` use, together with
the two stores they write: `mem`, the process memory reached through the
memory accessor, and `userVars`, the caller's trampoline variables by address
(`m_userTrampVar` points to one of them; `none` is `NULL`).  `m_trampoline = 0`
is `NULL`. -/
structure Detour where
  m_fnAddress : Nat
  m_originalInsts : insts_t
  m_hookInsts : insts_t
  m_hookSize : Nat
  m_nopProlOffset : Nat
  m_nopSize : Nat
  m_trampoline : Nat
  m_userTrampVar : Option Nat
  m_hooked : Bool
  mem : Memory
  userVars : Nat → Nat

/-- Modelled from the spec: `writeEncoding(insts, accessor)` is a method of the
disassembler, declared outside the sources at hand; section 6 of the spec
describes it as materializing the instructions as bytes at their addresses.
`getBytes` gives the encoded bytes an instruction carries. -/
def writeEncoding (getBytes : Instruction → List Nat) (mem : Memory)
    (insts : insts_t) : Memory :=
  insts.foldl (fun mem inst => mem_copy mem inst.address (getBytes inst)) mem

/-- `PLH::Detour::unHook` with assertions compiled out.  The `MemoryProtector`
restores the page protection when it leaves scope and has no effect on the
state below; `delete[]` releases the trampoline block, of which the state only
holds the pointer. -/
def unHook (getBytes : Instruction → List Nat) (s : Detour) : Bool × Detour :=
  if !s.m_hooked then
    -- Detour unhook failed: no hook present
    (false, s)
  else
    let s := { s with mem := writeEncoding getBytes s.mem s.m_originalInsts }
    let s := if s.m_trampoline != 0 then { s with m_trampoline := 0 } else s
    let s :=
      match s.m_userTrampVar with
      | some p =>
        { s with userVars := fun a => if a = p then 0 else s.userVars a,
                 m_userTrampVar := none }
      | none => s
    (true, { s with m_hooked := false })

/-- `PLH::Detour::reHook` with assertions compiled out.  The base address
`m_fnAddress + m_nopProlOffset` of the NOP fill is a `uint64_t` sum. -/
def reHook (getBytes : Instruction → List Nat) (s : Detour) : Bool × Detour :=
  let s := { s with mem := writeEncoding getBytes s.mem s.m_hookInsts }
  -- Nop the space between jmp and end of prologue
  let s := { s with
    mem := writeNop s.mem ((s.m_fnAddress + s.m_nopProlOffset) % U64) s.m_nopSize }
  (true, s)

/-- The address `a` is one of the bytes `writeEncoding` stores for `insts`. -/
def Encoded (getBytes : Instruction → List Nat) (insts : insts_t) (a : Nat) : Prop :=
  ∃ inst ∈ insts, inst.address ≤ a ∧ a < inst.address + (getBytes inst).length

/-! ## Instrumented loop of `expandProlSelfJmps` -/

/-- The loop `expandLoop` with a ghost log: every access `prol.at(i)` appends
the pair of `i` and `prol.size()` at that moment.  Apart from the log the
definition is `expandLoop` (`expandLoopLogged_fst`). -/
def expandLoopLogged (disasm : Disassembler) (func : insts_t) (prolStart : Nat) :
    Nat → Nat → Nat → ProlState → List (Nat × Nat) →
      Option ((Bool × ProlState) × List (Nat × Nat))
  | 0, _, _, _, _ => none
  | fuel + 1, i, maxAddr, st, log =>
    if h : i < st.prol.length then
      let log := log ++ [(i, st.prol.length)]
      let inst := st.prol[i]
      match disasm.getBranchMap inst.address with
      | none => expandLoopLogged disasm func prolStart fuel (i + 1) maxAddr st log
      | some srcs =>
        let maxAddr := updateMaxAddr srcs maxAddr
        let minProlSz := subU64 maxAddr prolStart
        match calcNearestSz disasm func minProlSz with
        | (none, roundProlSz) =>
          some ((false, { st with minProlSz := minProlSz, roundProlSz := roundProlSz }), log)
        | (some prol, roundProlSz) =>
          expandLoopLogged disasm func prolStart fuel (i + 1) maxAddr
            { prol := prol, minProlSz := minProlSz, roundProlSz := roundProlSz } log
    else
      some ((true, st), log)

/-- `expandProlSelfJmps` with the ghost log of its accesses `prol.at(i)`. -/
def expandProlSelfJmpsLogged (disasm : Disassembler) (prol func : insts_t)
    (minProlSz roundProlSz : Nat) : Option ((Bool × ProlState) × List (Nat × Nat)) :=
  match prol with
  | [] => none
  | first :: _ =>
    let prolStart := first.address
    expandLoopLogged disasm func prolStart (prol.length + func.length + 1) 0 0
      { prol := prol, minProlSz := minProlSz, roundProlSz := roundProlSz } []

/-! ### Concrete data for `followJmp` and the hook life cycle -/

/-- A register-indirect jump (`jmp rax`): branching, without displacement. -/
def jmpReg (addr : Nat) : Instruction :=
  { address := addr, size := 2, dispSize := 0, destination := 0,
    isBranching := true, isCalling := false, isIndirect := true,
    hasDisplacement := false }

/-- A disassembler over a memory image with a chain of thunks: a jump at
`0x100` to `0x200`, a jump at `0x200` to `0x300` and a function body at
`0x300`; nothing decodes elsewhere. -/
def thunkDisasm : Disassembler :=
  { isPadBytes := fun _ => false,
    isFuncEnd := fun _ => false,
    getBranchMap := fun _ => none,
    disassemble := fun start _ _ =>
      if start = 0x100 then [jmpInst 0x100 5 4 0x200]
      else if start = 0x200 then [jmpInst 0x200 5 4 0x300]
      else if start = 0x300 then [plainInst 0x300 1, plainInst 0x301 3]
      else [] }

/-- Encoded bytes for the examples: an instruction of `n` bytes is `n` times
the low byte of the address of the next instruction. -/
def exampleBytes (inst : Instruction) : List Nat :=
  List.replicate inst.size ((inst.address + inst.size) % 256)

/-- A hooked function at `0x1000`: the original prologue of a 2-byte and a
5-byte instruction was overwritten by a 5-byte jump at `0x1000` followed by a
NOP fill of 2 bytes at offset 5. -/
def hookedState : Detour :=
  { m_fnAddress := 0x1000,
    m_originalInsts := [plainInst 0x1000 2, plainInst 0x1002 5],
    m_hookInsts := [jmpInst 0x1000 5 4 0x9000],
    m_hookSize := 7,
    m_nopProlOffset := 5,
    m_nopSize := 2,
    m_trampoline := 0x7000,
    m_userTrampVar := some 0x8000,
    m_hooked := true,
    mem := writeNop (writeEncoding exampleBytes (fun _ => 0xFF) [jmpInst 0x1000 5 4 0x9000])
      0x1005 2,
    userVars := fun a => if a = 0x8000 then 0x7000 else 0 }

/-! ## Properties of `calcNearestSz` -/

theorem totalSize_nil : totalSize [] = 0 := rfl

theorem totalSize_cons (i : Instruction) (l : insts_t) :
    totalSize (i :: l) = i.size + totalSize l := by
  simp [totalSize]

theorem totalSize_append (l₁ l₂ : insts_t) :
    totalSize (l₁ ++ l₂) = totalSize l₁ + totalSize l₂ := by
  simp [totalSize]

/-- The loop leaves a prefix of the remaining stream appended to what was
collected before, and `prolLen` grown by the size of that prefix. -/
theorem calcNearestSzLoop_eq (disasm : Disassembler) (m : Nat) :
    ∀ (rest : insts_t) (prolLen : Nat) (acc : insts_t) (endHit : Bool),
      ∃ w, w <+: rest ∧
        calcNearestSzLoop disasm m rest prolLen acc endHit
          = (prolLen + totalSize w, acc ++ w) := by
  intro rest
  induction rest with
  | nil => intro prolLen acc endHit; exact ⟨[], List.prefix_refl _, by simp [calcNearestSzLoop, totalSize]⟩
  | cons inst rest ih =>
    intro prolLen acc endHit
    simp only [calcNearestSzLoop]
    split
    · exact ⟨[inst], by simp, by simp [totalSize]⟩
    · split
      · exact ⟨[inst], by simp, by simp [totalSize]⟩
      · obtain ⟨w, hw, he⟩ := ih (prolLen + inst.size) (acc ++ [inst])
          (if disasm.isFuncEnd inst then true else endHit)
        refine ⟨inst :: w, by simpa using hw, ?_⟩
        rw [he, totalSize_cons]
        simp [Nat.add_assoc]

/-- The loop stops no later than at the first non-empty prefix that reaches the
required minimum. -/
theorem calcNearestSzLoop_least (disasm : Disassembler) (m : Nat) :
    ∀ (rest : insts_t) (prolLen : Nat) (acc : insts_t) (endHit : Bool) (p : insts_t),
      p <+: rest → p ≠ [] → m ≤ prolLen + totalSize p →
        (calcNearestSzLoop disasm m rest prolLen acc endHit).1 ≤ prolLen + totalSize p := by
  intro rest
  induction rest with
  | nil =>
    intro prolLen acc endHit p hp hne _
    exact absurd (List.prefix_nil.mp hp) hne
  | cons inst rest ih =>
    intro prolLen acc endHit p hp hne hm
    cases p with
    | nil => exact absurd rfl hne
    | cons q p' =>
      obtain ⟨rfl, hp'⟩ := List.cons_prefix_cons.mp hp
      simp only [calcNearestSzLoop, totalSize_cons] at *
      split
      · simp
      · split
        · simp
        · rename_i hlt
          have hp'ne : p' ≠ [] := by
            rintro rfl
            simp [totalSize] at hm
            omega
          have := ih (prolLen + q.size) (acc ++ [q])
            (if disasm.isFuncEnd q then true else endHit) p' hp' hp'ne (by omega)
          omega

/-- C1 (as amended): whenever `calcNearestSz` returns a window, the window is a
prefix of `functionInsts`, its total byte size is the value written to
`prolOvrwEndOffset`, that size reaches the required minimum, and it is the
smallest total size of a non-empty prefix of the stream that does so; for a
required minimum above zero it is therefore the smallest among all prefixes. -/
theorem calcNearestSz_window (disasm : Disassembler) (functionInsts : insts_t)
    (prolOvrwStartOffset : Nat) (window : insts_t)
    (h : (calcNearestSz disasm functionInsts prolOvrwStartOffset).1 = some window) :
    window <+: functionInsts ∧
    totalSize window = (calcNearestSz disasm functionInsts prolOvrwStartOffset).2 ∧
    prolOvrwStartOffset ≤ totalSize window ∧
    (∀ p : insts_t, p <+: functionInsts → p ≠ [] → prolOvrwStartOffset ≤ totalSize p →
      totalSize window ≤ totalSize p) ∧
    (0 < prolOvrwStartOffset →
      ∀ p : insts_t, p <+: functionInsts → prolOvrwStartOffset ≤ totalSize p →
        totalSize window ≤ totalSize p) := by
  obtain ⟨w, hw, he⟩ :=
    calcNearestSzLoop_eq disasm prolOvrwStartOffset functionInsts 0 [] false
  have hleast := calcNearestSzLoop_least disasm prolOvrwStartOffset functionInsts 0 [] false
  simp only [calcNearestSz] at h ⊢
  rw [he] at h hleast ⊢
  simp only [Nat.zero_add, List.nil_append] at h hleast ⊢
  by_cases hge : prolOvrwStartOffset ≤ totalSize w
  · simp only [ge_iff_le, hge, if_true, Option.some.injEq] at h ⊢
    subst h
    refine ⟨hw, rfl, hge, fun p hp hne hm => hleast p hp hne hm, fun hpos p hp hm => ?_⟩
    refine hleast p hp ?_ hm
    rintro rfl
    simp [totalSize] at hm
    omega
  · simp [hge] at h

/-- Witness for C1: a stream of a 2-byte and a 4-byte instruction with a required
minimum of 5 bytes. -/
theorem calcNearestSz_window_witness :
    (calcNearestSz exampleDisasm [plainInst 0x3000 2, plainInst 0x3002 4, plainInst 0x3006 1] 5).1
        = some [plainInst 0x3000 2, plainInst 0x3002 4] ∧
    ([plainInst 0x3000 2, plainInst 0x3002 4] <+:
        [plainInst 0x3000 2, plainInst 0x3002 4, plainInst 0x3006 1] ∧
      totalSize [plainInst 0x3000 2, plainInst 0x3002 4]
        = (calcNearestSz exampleDisasm
            [plainInst 0x3000 2, plainInst 0x3002 4, plainInst 0x3006 1] 5).2 ∧
      5 ≤ totalSize [plainInst 0x3000 2, plainInst 0x3002 4] ∧
      (∀ p : insts_t, p <+: [plainInst 0x3000 2, plainInst 0x3002 4, plainInst 0x3006 1] →
        p ≠ [] → 5 ≤ totalSize p →
        totalSize [plainInst 0x3000 2, plainInst 0x3002 4] ≤ totalSize p) ∧
      (0 < 5 →
        ∀ p : insts_t, p <+: [plainInst 0x3000 2, plainInst 0x3002 4, plainInst 0x3006 1] →
          5 ≤ totalSize p →
          totalSize [plainInst 0x3000 2, plainInst 0x3002 4] ≤ totalSize p)) :=
  ⟨by decide,
   calcNearestSz_window exampleDisasm
     [plainInst 0x3000 2, plainInst 0x3002 4, plainInst 0x3006 1] 5
     [plainInst 0x3000 2, plainInst 0x3002 4] (by decide)⟩

/-- Counterexample to C1 as stated: for the required minimum 0 and a stream of
one 1-byte instruction the returned window is that instruction, of size 1,
although the empty prefix of the stream has size 0, which is not below the
required minimum. -/
theorem calcNearestSz_not_smallest_at_zero :
    calcNearestSz exampleDisasm [plainInst 0x3000 1] 0 = (some [plainInst 0x3000 1], 1) ∧
    ([] : insts_t) <+: [plainInst 0x3000 1] ∧
    0 ≤ totalSize [] ∧
    ¬ totalSize [plainInst 0x3000 1] ≤ totalSize [] := by
  decide

/-- C2 fails on the code: with a one-byte function end at `0x1000` followed by a
5-byte instruction that is not padding, and a required minimum of 5 bytes,
`calcNearestSz` returns both instructions as the window (6 bytes): the
instruction after the function end is in the window although `isPadBytes`
does not hold for it. -/
theorem calcNearestSz_window_reaches_past_funcEnd :
    calcNearestSz exampleDisasm [plainInst 0x1000 1, plainInst 0x1001 5] 5
      = (some [plainInst 0x1000 1, plainInst 0x1001 5], 6) ∧
    exampleDisasm.isFuncEnd (plainInst 0x1000 1) = true ∧
    exampleDisasm.isPadBytes (plainInst 0x1001 5) = false := by
  decide

/-! ## Properties of `buildRelocationList` -/

/-- One loop iteration appends the instruction to the lists selected by
`needsEntry`, `needsReloc` and `needsTranslation`. -/
theorem classify_eq (prolStart roundProlSz : Nat) (delta : Int) (lists : RelocLists)
    (inst : Instruction) :
    classify prolStart roundProlSz delta lists inst =
      { instsNeedingEntry := lists.instsNeedingEntry ++
          (if needsEntry prolStart roundProlSz delta inst then [inst] else []),
        instsNeedingReloc := lists.instsNeedingReloc ++
          (if needsReloc prolStart roundProlSz delta inst then [inst] else []),
        instsNeedingTranslation := lists.instsNeedingTranslation ++
          (if needsTranslation delta inst then [inst] else []) } := by
  unfold classify needsEntry needsReloc needsTranslation branchesOut
  cases h1 : inst.hasDisplacement <;> cases h2 : inst.isBranching <;>
    by_cases h5 : absDelta delta > maxInstDisp inst.dispSize <;>
    by_cases h3 : inst.destination < prolStart <;>
    by_cases h3' : inst.destination > (prolStart + roundProlSz) % U64 <;>
    cases h4 : inst.isCalling <;> cases h6 : inst.isIndirect <;>
    simp [h3, h3', h5]

/-- The loop appends to each list the instructions its selector accepts, in
prologue order. -/
theorem foldl_classify (prolStart roundProlSz : Nat) (delta : Int) :
    ∀ (l : insts_t) (lists : RelocLists),
      l.foldl (classify prolStart roundProlSz delta) lists =
        { instsNeedingEntry := lists.instsNeedingEntry ++
            l.filter (needsEntry prolStart roundProlSz delta),
          instsNeedingReloc := lists.instsNeedingReloc ++
            l.filter (needsReloc prolStart roundProlSz delta),
          instsNeedingTranslation := lists.instsNeedingTranslation ++
            l.filter (needsTranslation delta) } := by
  intro l
  induction l with
  | nil => intro lists; simp
  | cons inst l ih =>
    intro lists
    rw [List.foldl_cons, ih, classify_eq]
    by_cases a : needsEntry prolStart roundProlSz delta inst <;>
      by_cases b : needsReloc prolStart roundProlSz delta inst <;>
      by_cases c : needsTranslation delta inst <;>
      simp [List.filter_cons, a, b, c]

/-- The three output lists of `buildRelocationList` on a non-empty prologue. -/
theorem buildRelocationList_eq (first : Instruction) (rest : insts_t) (roundProlSz : Nat)
    (delta : Int) :
    buildRelocationList (first :: rest) roundProlSz delta [] [] [] =
      some
        { instsNeedingEntry :=
            (first :: rest).filter (needsEntry first.address roundProlSz delta),
          instsNeedingReloc :=
            (first :: rest).filter (needsReloc first.address roundProlSz delta),
          instsNeedingTranslation := (first :: rest).filter (needsTranslation delta) } := by
  simp only [buildRelocationList, foldl_classify, List.nil_append]

/-- C3 (as amended): on a non-empty prologue and with the three output lists
empty on entry, the lists partition exactly the prologue instructions with
displacement that are not branching or whose destination is below `prolStart`
or above `prolStart + roundProlSz` (a `uint64_t` sum): an instruction is in one
of the lists exactly when it is such a prologue instruction, and no instruction
is in two of the lists. -/
theorem buildRelocationList_partition (first : Instruction) (rest : insts_t)
    (roundProlSz : Nat) (delta : Int) (lists : RelocLists)
    (h : buildRelocationList (first :: rest) roundProlSz delta [] [] [] = some lists)
    (inst : Instruction) :
    ((inst ∈ lists.instsNeedingEntry ∨ inst ∈ lists.instsNeedingReloc ∨
        inst ∈ lists.instsNeedingTranslation) ↔
      (inst ∈ first :: rest ∧ inst.hasDisplacement = true ∧
        (inst.isBranching = false ∨ inst.destination < first.address ∨
          inst.destination > (first.address + roundProlSz) % U64))) ∧
    ¬ (inst ∈ lists.instsNeedingEntry ∧ inst ∈ lists.instsNeedingReloc) ∧
    ¬ (inst ∈ lists.instsNeedingEntry ∧ inst ∈ lists.instsNeedingTranslation) ∧
    ¬ (inst ∈ lists.instsNeedingReloc ∧ inst ∈ lists.instsNeedingTranslation) := by
  rw [buildRelocationList_eq] at h
  cases h
  simp only [List.mem_filter, needsEntry, needsReloc, needsTranslation, branchesOut]
  by_cases hin : inst ∈ first :: rest <;>
    cases h1 : inst.hasDisplacement <;> cases h2 : inst.isBranching <;>
    by_cases h5 : absDelta delta > maxInstDisp inst.dispSize <;>
    by_cases h3 : inst.destination < first.address <;>
    by_cases h3' : inst.destination > (first.address + roundProlSz) % U64 <;>
    cases h4 : inst.isCalling <;> cases h6 : inst.isIndirect <;>
    simp [hin, h3, h3', h5]

/-- Witness for C3: a prologue of a data access, a jump leaving the window and
an instruction without displacement, moved by 200 bytes; the jump lands in
`instsNeedingEntry` only. -/
theorem buildRelocationList_partition_witness :
    buildRelocationList
        (dataInst 0x1000 7 4 0x5000 :: [jmpInst 0x1007 2 1 0x900, plainInst 0x1009 1])
        10 200 [] [] []
      = some ⟨[jmpInst 0x1007 2 1 0x900], [dataInst 0x1000 7 4 0x5000], []⟩ ∧
    (((jmpInst 0x1007 2 1 0x900 ∈ [jmpInst 0x1007 2 1 0x900] ∨
          jmpInst 0x1007 2 1 0x900 ∈ [dataInst 0x1000 7 4 0x5000] ∨
          jmpInst 0x1007 2 1 0x900 ∈ ([] : insts_t)) ↔
        (jmpInst 0x1007 2 1 0x900 ∈
            dataInst 0x1000 7 4 0x5000 :: [jmpInst 0x1007 2 1 0x900, plainInst 0x1009 1] ∧
          (jmpInst 0x1007 2 1 0x900).hasDisplacement = true ∧
          ((jmpInst 0x1007 2 1 0x900).isBranching = false ∨
            (jmpInst 0x1007 2 1 0x900).destination < (dataInst 0x1000 7 4 0x5000).address ∨
            (jmpInst 0x1007 2 1 0x900).destination >
              ((dataInst 0x1000 7 4 0x5000).address + 10) % U64))) ∧
      ¬ (jmpInst 0x1007 2 1 0x900 ∈ [jmpInst 0x1007 2 1 0x900] ∧
          jmpInst 0x1007 2 1 0x900 ∈ [dataInst 0x1000 7 4 0x5000]) ∧
      ¬ (jmpInst 0x1007 2 1 0x900 ∈ [jmpInst 0x1007 2 1 0x900] ∧
          jmpInst 0x1007 2 1 0x900 ∈ ([] : insts_t)) ∧
      ¬ (jmpInst 0x1007 2 1 0x900 ∈ [dataInst 0x1000 7 4 0x5000] ∧
          jmpInst 0x1007 2 1 0x900 ∈ ([] : insts_t))) :=
  ⟨by decide,
   buildRelocationList_partition (dataInst 0x1000 7 4 0x5000)
     [jmpInst 0x1007 2 1 0x900, plainInst 0x1009 1] 10 200
     ⟨[jmpInst 0x1007 2 1 0x900], [dataInst 0x1000 7 4 0x5000], []⟩ (by decide)
     (jmpInst 0x1007 2 1 0x900)⟩

/-- Counterexample to C3 as stated: a two-byte jump at `0x1000` to `0x1002`,
the next instruction of a 5-byte window, is a prologue instruction with
displacement, and `buildRelocationList` puts it in none of the three lists. -/
theorem buildRelocationList_inner_branch_in_no_list :
    buildRelocationList [jmpInst 0x1000 2 1 0x1002, plainInst 0x1002 3] 5 0x10000 [] [] []
      = some ⟨[], [], []⟩ ∧
    jmpInst 0x1000 2 1 0x1002 ∈ [jmpInst 0x1000 2 1 0x1002, plainInst 0x1002 3] ∧
    (jmpInst 0x1000 2 1 0x1002).hasDisplacement = true := by
  decide

/-- The bound `maxInstDisp` is the intended `2^(8d-1) - 1` for displacement
fields of 1 to 6 bytes. -/
theorem maxInstDisp_exact (d : Nat) (h1 : 1 ≤ d) (h6 : d ≤ 6) :
    maxInstDisp d = 2 ^ (8 * d - 1) - 1 := by
  interval_cases d <;> decide

/-- For displacement fields of 1 to 6 bytes the range test of
`buildRelocationList` has its boundary where C4 puts it: `|delta| = 2^(8d-1) - 1`
is not above `maxInstDisp`, one unit more is. -/
theorem absDelta_boundary (d : Nat) (h1 : 1 ≤ d) (h6 : d ≤ 6) (delta : Int) :
    (delta.natAbs = 2 ^ (8 * d - 1) - 1 → ¬ absDelta delta > maxInstDisp d) ∧
    (delta.natAbs = 2 ^ (8 * d - 1) → absDelta delta > maxInstDisp d) := by
  rw [maxInstDisp_exact d h1 h6]
  unfold absDelta U64
  interval_cases d <;> constructor <;> intro h <;> rw [h] <;> decide

/-- C4 fails on the code for displacement fields of 7 and 8 bytes.  In binary64
`2^55 - 1` and `2^63 - 1` are not representable and `std::pow(2, dispSzBits - 1) - 1.0`
rounds to `2^55` and `2^63`, so `maxInstDisp` is one too large: with
`|delta|` one unit above `2^(8d-1) - 1` a data access and a jump leaving the
window are still placed in `instsNeedingReloc`, not in
`instsNeedingTranslation` or `instsNeedingEntry`. -/
theorem buildRelocationList_boundary_wide_displacement :
    maxInstDisp 7 = 2 ^ 55 ∧ maxInstDisp 8 = 2 ^ 63 ∧
    buildRelocationList [dataInst 0x1000 9 7 0x5000] 9 (2 ^ 55) [] [] []
      = some ⟨[], [dataInst 0x1000 9 7 0x5000], []⟩ ∧
    buildRelocationList [jmpInst 0x1000 9 7 0x5000] 9 (2 ^ 55) [] [] []
      = some ⟨[], [jmpInst 0x1000 9 7 0x5000], []⟩ ∧
    buildRelocationList [dataInst 0x1000 10 8 0x5000] 10 (-(2 ^ 63)) [] [] []
      = some ⟨[], [dataInst 0x1000 10 8 0x5000], []⟩ ∧
    buildRelocationList [jmpInst 0x1000 10 8 0x5000] 10 (-(2 ^ 63)) [] [] []
      = some ⟨[], [jmpInst 0x1000 10 8 0x5000], []⟩ := by
  decide

/-- C5 (as amended): a branching prologue instruction with displacement is put
in `instsNeedingEntry` or `instsNeedingReloc` if and only if its destination is
below `prolStart` or above `prolStart + roundProlSz` (a `uint64_t` sum); when
that sum does not wrap this is: outside the closed interval
`[prolStart, prolStart + roundProlSz]`. -/
theorem buildRelocationList_branch_classified_iff (first : Instruction) (rest : insts_t)
    (roundProlSz : Nat) (delta : Int) (lists : RelocLists)
    (h : buildRelocationList (first :: rest) roundProlSz delta [] [] [] = some lists)
    (inst : Instruction) (hin : inst ∈ first :: rest)
    (hb : inst.isBranching = true) (hd : inst.hasDisplacement = true) :
    ((inst ∈ lists.instsNeedingEntry ∨ inst ∈ lists.instsNeedingReloc) ↔
      (inst.destination < first.address ∨
        inst.destination > (first.address + roundProlSz) % U64)) ∧
    (first.address + roundProlSz < U64 →
      ((inst ∈ lists.instsNeedingEntry ∨ inst ∈ lists.instsNeedingReloc) ↔
        ¬ (first.address ≤ inst.destination ∧
            inst.destination ≤ first.address + roundProlSz))) := by
  rw [buildRelocationList_eq] at h
  cases h
  have key : (inst ∈ (first :: rest).filter (needsEntry first.address roundProlSz delta) ∨
        inst ∈ (first :: rest).filter (needsReloc first.address roundProlSz delta)) ↔
      (inst.destination < first.address ∨
        inst.destination > (first.address + roundProlSz) % U64) := by
    simp only [List.mem_filter, needsEntry, needsReloc, branchesOut]
    by_cases h5 : absDelta delta > maxInstDisp inst.dispSize <;>
      by_cases h3 : inst.destination < first.address <;>
      by_cases h3' : inst.destination > (first.address + roundProlSz) % U64 <;>
      cases h4 : inst.isCalling <;> cases h6 : inst.isIndirect <;>
      simp [hin, hb, hd, h3, h3', h5]
  refine ⟨key, fun hlt => ?_⟩
  rw [key, Nat.mod_eq_of_lt hlt]
  omega

/-- Witness for C5: a jump from the window to `0x1006`, one byte past the end of
the 5-byte window at `0x1000`. -/
theorem buildRelocationList_branch_classified_iff_witness :
    buildRelocationList (plainInst 0x1000 3 :: [jmpInst 0x1003 2 1 0x1006]) 5 0x10000 [] [] []
      = some ⟨[jmpInst 0x1003 2 1 0x1006], [], []⟩ ∧
    jmpInst 0x1003 2 1 0x1006 ∈ plainInst 0x1000 3 :: [jmpInst 0x1003 2 1 0x1006] ∧
    (jmpInst 0x1003 2 1 0x1006).isBranching = true ∧
    (jmpInst 0x1003 2 1 0x1006).hasDisplacement = true ∧
    (((jmpInst 0x1003 2 1 0x1006 ∈ [jmpInst 0x1003 2 1 0x1006] ∨
          jmpInst 0x1003 2 1 0x1006 ∈ ([] : insts_t)) ↔
        ((jmpInst 0x1003 2 1 0x1006).destination < (plainInst 0x1000 3).address ∨
          (jmpInst 0x1003 2 1 0x1006).destination > ((plainInst 0x1000 3).address + 5) % U64)) ∧
      ((plainInst 0x1000 3).address + 5 < U64 →
        ((jmpInst 0x1003 2 1 0x1006 ∈ [jmpInst 0x1003 2 1 0x1006] ∨
            jmpInst 0x1003 2 1 0x1006 ∈ ([] : insts_t)) ↔
          ¬ ((plainInst 0x1000 3).address ≤ (jmpInst 0x1003 2 1 0x1006).destination ∧
              (jmpInst 0x1003 2 1 0x1006).destination ≤ (plainInst 0x1000 3).address + 5)))) :=
  ⟨by decide, by decide, rfl, rfl,
   buildRelocationList_branch_classified_iff (plainInst 0x1000 3) [jmpInst 0x1003 2 1 0x1006]
     5 0x10000 ⟨[jmpInst 0x1003 2 1 0x1006], [], []⟩ (by decide)
     (jmpInst 0x1003 2 1 0x1006) (by decide) rfl rfl⟩

/-- Counterexample to C5 as stated: a jump whose destination `0x1005` equals
`prolStart + roundProlSz` (window of 5 bytes at `0x1000`) lies outside the
half-open interval, yet `buildRelocationList` puts it in neither
`instsNeedingEntry` nor `instsNeedingReloc`. -/
theorem buildRelocationList_branch_to_window_end_unclassified :
    buildRelocationList [plainInst 0x1000 3, jmpInst 0x1003 2 1 0x1005] 5 0x10000 [] [] []
      = some ⟨[], [], []⟩ ∧
    (jmpInst 0x1003 2 1 0x1005).isBranching = true ∧
    (jmpInst 0x1003 2 1 0x1005).hasDisplacement = true ∧
    (jmpInst 0x1003 2 1 0x1005).destination = (plainInst 0x1000 3).address + 5 ∧
    ¬ ((plainInst 0x1000 3).address ≤ (jmpInst 0x1003 2 1 0x1005).destination ∧
        (jmpInst 0x1003 2 1 0x1005).destination < (plainInst 0x1000 3).address + 5) := by
  decide

/-- C6 (as amended): a prologue instruction with displacement that is
branching, calling and indirect and whose destination is below `prolStart` or
above `prolStart + roundProlSz` (a `uint64_t` sum) is placed in
`instsNeedingEntry` and in neither `instsNeedingReloc` nor
`instsNeedingTranslation`, whatever `delta` is. -/
theorem buildRelocationList_indirect_call (first : Instruction) (rest : insts_t)
    (roundProlSz : Nat) (delta : Int) (lists : RelocLists)
    (h : buildRelocationList (first :: rest) roundProlSz delta [] [] [] = some lists)
    (inst : Instruction) (hin : inst ∈ first :: rest)
    (hd : inst.hasDisplacement = true) (hb : inst.isBranching = true)
    (hc : inst.isCalling = true) (hi : inst.isIndirect = true)
    (hout : inst.destination < first.address ∨
      inst.destination > (first.address + roundProlSz) % U64) :
    inst ∈ lists.instsNeedingEntry ∧ inst ∉ lists.instsNeedingReloc ∧
      inst ∉ lists.instsNeedingTranslation := by
  rw [buildRelocationList_eq] at h
  cases h
  simp only [List.mem_filter, needsEntry, needsReloc, needsTranslation, branchesOut]
  rcases hout with h3 | h3 <;> simp [hin, hd, hb, hc, hi, h3]

/-- Witness for C6: an indirect call in a 7-byte window at `0x1000` whose
destination `0x7000` is far above the window, with `delta = 16`. -/
theorem buildRelocationList_indirect_call_witness :
    buildRelocationList (plainInst 0x1000 1 :: [indirectCall 0x1001 0x7000]) 7 16 [] [] []
      = some ⟨[indirectCall 0x1001 0x7000], [], []⟩ ∧
    indirectCall 0x1001 0x7000 ∈ plainInst 0x1000 1 :: [indirectCall 0x1001 0x7000] ∧
    (indirectCall 0x1001 0x7000).hasDisplacement = true ∧
    (indirectCall 0x1001 0x7000).isBranching = true ∧
    (indirectCall 0x1001 0x7000).isCalling = true ∧
    (indirectCall 0x1001 0x7000).isIndirect = true ∧
    ((indirectCall 0x1001 0x7000).destination < (plainInst 0x1000 1).address ∨
      (indirectCall 0x1001 0x7000).destination > ((plainInst 0x1000 1).address + 7) % U64) ∧
    (indirectCall 0x1001 0x7000 ∈ [indirectCall 0x1001 0x7000] ∧
      indirectCall 0x1001 0x7000 ∉ ([] : insts_t) ∧
      indirectCall 0x1001 0x7000 ∉ ([] : insts_t)) :=
  ⟨by decide, by decide, rfl, rfl, rfl, rfl, by decide,
   buildRelocationList_indirect_call (plainInst 0x1000 1) [indirectCall 0x1001 0x7000]
     7 16 ⟨[indirectCall 0x1001 0x7000], [], []⟩ (by decide)
     (indirectCall 0x1001 0x7000) (by decide) rfl rfl rfl rfl (by decide)⟩

/-- Counterexample to C6 as stated: an indirect call whose destination `0x1007`
is the first byte after the 7-byte window at `0x1000`, hence outside the
window, is placed in none of the lists, `instsNeedingEntry` included. -/
theorem buildRelocationList_indirect_call_to_window_end :
    buildRelocationList [plainInst 0x1000 1, indirectCall 0x1001 0x1007] 7 16 [] [] []
      = some ⟨[], [], []⟩ ∧
    (indirectCall 0x1001 0x1007).hasDisplacement = true ∧
    (indirectCall 0x1001 0x1007).isBranching = true ∧
    (indirectCall 0x1001 0x1007).isCalling = true ∧
    (indirectCall 0x1001 0x1007).isIndirect = true ∧
    ¬ ((plainInst 0x1000 1).address ≤ (indirectCall 0x1001 0x1007).destination ∧
        (indirectCall 0x1001 0x1007).destination < (plainInst 0x1000 1).address + 7) := by
  decide

/-- C7: an instruction for which `hasDisplacement()` is false is placed by
`buildRelocationList` in none of `instsNeedingEntry`, `instsNeedingReloc` and
`instsNeedingTranslation`. -/
theorem buildRelocationList_no_displacement (first : Instruction) (rest : insts_t)
    (roundProlSz : Nat) (delta : Int) (lists : RelocLists)
    (h : buildRelocationList (first :: rest) roundProlSz delta [] [] [] = some lists)
    (inst : Instruction) (hin : inst ∈ first :: rest)
    (hd : inst.hasDisplacement = false) :
    inst ∉ lists.instsNeedingEntry ∧ inst ∉ lists.instsNeedingReloc ∧
      inst ∉ lists.instsNeedingTranslation := by
  rw [buildRelocationList_eq] at h
  cases h
  simp [List.mem_filter, needsEntry, needsReloc, needsTranslation, hin, hd]

/-- Witness for C7: the one-byte instruction without displacement that ends
the prologue of the witness for C3. -/
theorem buildRelocationList_no_displacement_witness :
    buildRelocationList
        (dataInst 0x1000 7 4 0x5000 :: [jmpInst 0x1007 2 1 0x900, plainInst 0x1009 1])
        10 (-200) [] [] []
      = some ⟨[jmpInst 0x1007 2 1 0x900], [dataInst 0x1000 7 4 0x5000], []⟩ ∧
    plainInst 0x1009 1 ∈
      dataInst 0x1000 7 4 0x5000 :: [jmpInst 0x1007 2 1 0x900, plainInst 0x1009 1] ∧
    (plainInst 0x1009 1).hasDisplacement = false ∧
    (plainInst 0x1009 1 ∉ [jmpInst 0x1007 2 1 0x900] ∧
      plainInst 0x1009 1 ∉ [dataInst 0x1000 7 4 0x5000] ∧
      plainInst 0x1009 1 ∉ ([] : insts_t)) :=
  ⟨by decide, by decide, rfl,
   buildRelocationList_no_displacement (dataInst 0x1000 7 4 0x5000)
     [jmpInst 0x1007 2 1 0x900, plainInst 0x1009 1] 10 (-200)
     ⟨[jmpInst 0x1007 2 1 0x900], [dataInst 0x1000 7 4 0x5000], []⟩ (by decide)
     (plainInst 0x1009 1) (by decide) rfl⟩

/-! ## Properties of `expandProlSelfJmps` -/

/-- A successful `calcNearestSz` returns a prefix of the stream whose size is the
value written to `prolOvrwEndOffset` and reaches the required minimum. -/
theorem calcNearestSz_some (disasm : Disassembler) (func : insts_t) (m : Nat)
    (w : insts_t) (sz : Nat) (h : calcNearestSz disasm func m = (some w, sz)) :
    w <+: func ∧ totalSize w = sz ∧ m ≤ sz := by
  obtain ⟨p, hp, he⟩ := calcNearestSzLoop_eq disasm m func 0 [] false
  simp only [calcNearestSz, he, Nat.zero_add, List.nil_append] at h
  by_cases hge : m ≤ totalSize p
  · simp only [ge_iff_le, hge, if_true, Prod.mk.injEq, Option.some.injEq] at h
    obtain ⟨rfl, rfl⟩ := h
    exact ⟨hp, rfl, hge⟩
  · simp [hge] at h

/-- The inner loop never lowers `maxAddr`. -/
theorem updateMaxAddr_ge (srcs : insts_t) :
    ∀ m : Nat, m ≤ updateMaxAddr srcs m := by
  induction srcs with
  | nil => intro m; simp [updateMaxAddr]
  | cons s srcs ih =>
    intro m
    simp only [updateMaxAddr, List.foldl_cons] at ih ⊢
    split
    · exact le_trans (by omega) (ih _)
    · exact ih _

/-- After the inner loop `maxAddr` is at least the end address of every source. -/
theorem updateMaxAddr_mem (srcs : insts_t) :
    ∀ (m : Nat) (s : Instruction), s ∈ srcs →
      (s.address + s.size) % U64 ≤ updateMaxAddr srcs m := by
  induction srcs with
  | nil => intro m s hs; simp at hs
  | cons s0 srcs ih =>
    intro m s hs
    rcases List.mem_cons.mp hs with rfl | hs
    · have := updateMaxAddr_ge srcs
        (if (s.address + s.size) % U64 > m then (s.address + s.size) % U64 else m)
      simp only [updateMaxAddr, List.foldl_cons] at this ⊢
      refine le_trans ?_ this
      split <;> omega
    · simp only [updateMaxAddr, List.foldl_cons]
      exact ih _ s hs

/-- The inner loop keeps `maxAddr` a `uint64_t` value. -/
theorem updateMaxAddr_lt (srcs : insts_t) :
    ∀ m : Nat, m < U64 → updateMaxAddr srcs m < U64 := by
  induction srcs with
  | nil => intro m hm; simpa [updateMaxAddr] using hm
  | cons s srcs ih =>
    intro m hm
    simp only [updateMaxAddr, List.foldl_cons] at ih ⊢
    apply ih
    split
    · exact Nat.mod_lt _ (by unfold U64; decide)
    · exact hm

/-- A bound on the wrapping difference `a - b` bounds `a`. -/
theorem subU64_le (a b r : Nat) (ha : a < U64) (hb : b < U64) (h : subU64 a b ≤ r) :
    a ≤ b + r := by
  unfold subU64 at h
  rw [Nat.mod_eq_of_lt ha, Nat.mod_eq_of_lt hb] at h
  by_cases hab : b ≤ a
  · have e : a + (U64 - b) = (a - b) + U64 := by omega
    rw [e, Nat.add_mod_right, Nat.mod_eq_of_lt (by omega)] at h
    omega
  · omega

/-- Loop invariant of `expandProlSelfJmps`: the window is a prefix of the
function, `maxAddr` is at least the end of every source of every instruction
visited so far, and the window reaches up to `maxAddr`. -/
theorem expandLoop_covers (disasm : Disassembler) (func : insts_t) (prolStart : Nat)
    (hps : prolStart < U64)
    (hsrc : ∀ a srcs, disasm.getBranchMap a = some srcs →
      ∀ s ∈ srcs, s.address + s.size < U64) :
    ∀ (fuel i maxAddr : Nat) (st res : ProlState),
      st.prol <+: func → maxAddr < U64 → maxAddr ≤ prolStart + st.roundProlSz →
      (∀ j t, j < i → func[j]? = some t → ∀ srcs, disasm.getBranchMap t.address = some srcs →
        ∀ s ∈ srcs, s.address + s.size ≤ maxAddr) →
      expandLoop disasm func prolStart fuel i maxAddr st = some (true, res) →
      ∀ t ∈ res.prol, ∀ srcs, disasm.getBranchMap t.address = some srcs →
        ∀ s ∈ srcs, s.address + s.size ≤ prolStart + res.roundProlSz := by
  intro fuel
  induction fuel with
  | zero => intro i maxAddr st res _ _ _ _ h; simp [expandLoop] at h
  | succ fuel ih =>
    intro i maxAddr st res hpre hlt hle hvis h
    simp only [expandLoop] at h
    split at h
    · rename_i hi
      have hfi : func[i]? = some st.prol[i] := by
        have := hpre.getElem hi
        rw [this]
        exact List.getElem?_eq_getElem _
      split at h
      · rename_i hnone
        refine ih (i + 1) maxAddr st res hpre hlt hle ?_ h
        intro j t hj hjt srcs hs
        rcases Nat.lt_succ_iff_lt_or_eq.mp hj with hj | rfl
        · exact hvis j t hj hjt srcs hs
        · rw [hfi] at hjt
          cases hjt
          rw [hnone] at hs
          cases hs
      · rename_i srcs hsome
        split at h
        · simp at h
        · rename_i prol roundProlSz hcalc
          obtain ⟨hp, _, hm⟩ := calcNearestSz_some _ _ _ _ _ hcalc
          have hlt2 := updateMaxAddr_lt srcs maxAddr hlt
          refine ih (i + 1) (updateMaxAddr srcs maxAddr) _ res hp hlt2
            (subU64_le _ _ _ hlt2 hps hm) ?_ h
          intro j t hj hjt srcs2 hs s hsin
          rcases Nat.lt_succ_iff_lt_or_eq.mp hj with hj | rfl
          · exact le_trans (hvis j t hj hjt srcs2 hs s hsin) (updateMaxAddr_ge srcs maxAddr)
          · rw [hfi] at hjt
            cases hjt
            rw [hsome] at hs
            cases hs
            have := updateMaxAddr_mem srcs maxAddr s hsin
            rwa [Nat.mod_eq_of_lt (hsrc _ _ hsome s hsin)] at this
    · rename_i hi
      simp only [Option.some.injEq, Prod.mk.injEq, true_and] at h
      subst h
      intro t ht srcs hs s hsin
      obtain ⟨j, hj, rfl⟩ := List.getElem_of_mem ht
      have hfj : func[j]? = some st.prol[j] := by
        have := hpre.getElem hj
        rw [this]
        exact List.getElem?_eq_getElem _
      exact le_trans (hvis j _ (by omega) hfj srcs hs s hsin) hle

/-- The loop of `expandProlSelfJmps` does not run out of fuel when the fuel
exceeds the distance of the index to the longer of window and function. -/
theorem expandLoop_isSome (disasm : Disassembler) (func : insts_t) (prolStart N : Nat)
    (hN : func.length ≤ N) :
    ∀ (fuel i maxAddr : Nat) (st : ProlState),
      st.prol.length ≤ N → 1 ≤ fuel → N + 1 ≤ fuel + i →
      (expandLoop disasm func prolStart fuel i maxAddr st).isSome = true := by
  intro fuel
  induction fuel with
  | zero => intro i maxAddr st _ h1 _; omega
  | succ fuel ih =>
    intro i maxAddr st hlen _ hfuel
    simp only [expandLoop]
    split
    · rename_i hi
      split
      · exact ih (i + 1) maxAddr st hlen (by omega) (by omega)
      · split
        · rfl
        · rename_i prol roundProlSz hcalc
          obtain ⟨hp, _, _⟩ := calcNearestSz_some _ _ _ _ _ hcalc
          exact ih (i + 1) _ _ (le_trans hp.length_le hN) (by omega) (by omega)
    · rfl

/-- On a non-empty window `expandProlSelfJmps` returns: the loop terminates
within the fuel it is given. -/
theorem expandProlSelfJmps_isSome (disasm : Disassembler) (first : Instruction)
    (rest func : insts_t) (minProlSz roundProlSz : Nat) :
    (expandProlSelfJmps disasm (first :: rest) func minProlSz roundProlSz).isSome = true := by
  simp only [expandProlSelfJmps]
  exact expandLoop_isSome disasm func first.address
    (max (first :: rest).length func.length) (le_max_right _ _) _ 0 0 _
    (le_max_left _ _) (by omega) (by
      simp only [List.length_cons, Nat.add_zero]
      have := max_le_add_of_nonneg (Nat.zero_le (rest.length + 1)) (Nat.zero_le func.length)
      omega)

/-- Every instruction of a contiguous stream ends no later than the stream. -/
theorem Contiguous.end_le :
    ∀ (func : insts_t) (start : Nat), Contiguous start func →
      ∀ s ∈ func, s.address + s.size ≤ start + totalSize func := by
  intro func
  induction func with
  | nil => intro start _ s hs; simp at hs
  | cons i func ih =>
    intro start hc s hs
    obtain ⟨ha, hc⟩ := hc
    rw [totalSize_cons]
    rcases List.mem_cons.mp hs with rfl | hs
    · omega
    · have := ih _ hc s hs
      omega

/-- C8 fails on the code: in `loopFunc` the jump at `0x4001` targets the first
instruction.  The window computed for the minimum 5 is the first three
instructions (6 bytes); `expandProlSelfJmps` overwrites `minProlSz` with 3, the
offset at which the jump ends, and returns true with the window cut back to
the first two instructions and `roundProlSz = 3`. -/
theorem expandProlSelfJmps_shrinks_window :
    calcNearestSz loopDisasm loopFunc 5
      = (some [plainInst 0x4000 1, jmpInst 0x4001 2 1 0x4000, plainInst 0x4003 3], 6) ∧
    expandProlSelfJmps loopDisasm
        [plainInst 0x4000 1, jmpInst 0x4001 2 1 0x4000, plainInst 0x4003 3] loopFunc 5 6
      = some (true,
          { prol := [plainInst 0x4000 1, jmpInst 0x4001 2 1 0x4000],
            minProlSz := 3, roundProlSz := 3 }) ∧
    ¬ (6 ≤ 3) ∧
    ¬ ([plainInst 0x4000 1, jmpInst 0x4001 2 1 0x4000, plainInst 0x4003 3] <+:
        [plainInst 0x4000 1, jmpInst 0x4001 2 1 0x4000]) := by
  decide

/-- C9: for a function stream with contiguous addresses starting at `prolStart`
that lies below the top of the 64-bit address space, a branch map whose source
instructions lie in that function and an initial window that is a prefix of the
function, whenever `expandProlSelfJmps` returns true every source `src` of
every instruction of the final window that the branch map lists as a target
satisfies `src.address + src.size ≤ prolStart + roundProlSz`. -/
theorem expandProlSelfJmps_covers_sources (disasm : Disassembler) (func : insts_t)
    (first : Instruction) (rest : insts_t) (minProlSz roundProlSz : Nat) (st : ProlState)
    (hcont : Contiguous first.address func)
    (hspace : first.address + totalSize func < U64)
    (hsrc : ∀ a srcs, disasm.getBranchMap a = some srcs → ∀ s ∈ srcs, s ∈ func)
    (hpre : first :: rest <+: func)
    (h : expandProlSelfJmps disasm (first :: rest) func minProlSz roundProlSz
      = some (true, st)) :
    ∀ t ∈ st.prol, ∀ srcs, disasm.getBranchMap t.address = some srcs →
      ∀ src ∈ srcs, src.address + src.size ≤ first.address + st.roundProlSz := by
  simp only [expandProlSelfJmps] at h
  refine expandLoop_covers disasm func first.address (by omega) ?_ _ 0 0 _ st hpre
    (by unfold U64; decide) (Nat.zero_le _) ?_ h
  · intro a srcs ha s hs
    have := Contiguous.end_le func _ hcont s (hsrc a srcs ha s hs)
    omega
  · intro j t hj
    omega

/-- Witness for C9: in `backJmpFunc` the jump at `0x5006` targets the second
instruction; the 6-byte window of three instructions grows to the four
instructions up to the end of the jump, `roundProlSz = 8`. -/
theorem expandProlSelfJmps_covers_sources_witness :
    Contiguous (plainInst 0x5000 1).address backJmpFunc ∧
    (plainInst 0x5000 1).address + totalSize backJmpFunc < U64 ∧
    (∀ a srcs, backJmpDisasm.getBranchMap a = some srcs → ∀ s ∈ srcs, s ∈ backJmpFunc) ∧
    plainInst 0x5000 1 :: [plainInst 0x5001 2, plainInst 0x5003 3] <+: backJmpFunc ∧
    expandProlSelfJmps backJmpDisasm
        (plainInst 0x5000 1 :: [plainInst 0x5001 2, plainInst 0x5003 3]) backJmpFunc 5 6
      = some (true,
          { prol := [plainInst 0x5000 1, plainInst 0x5001 2, plainInst 0x5003 3,
              jmpInst 0x5006 2 1 0x5001],
            minProlSz := 8, roundProlSz := 8 }) ∧
    (∀ t ∈ [plainInst 0x5000 1, plainInst 0x5001 2, plainInst 0x5003 3,
          jmpInst 0x5006 2 1 0x5001],
      ∀ srcs, backJmpDisasm.getBranchMap t.address = some srcs →
        ∀ src ∈ srcs, src.address + src.size ≤ (plainInst 0x5000 1).address + 8) :=
  have hsrc : ∀ a srcs, backJmpDisasm.getBranchMap a = some srcs →
      ∀ s ∈ srcs, s ∈ backJmpFunc := by
    intro a srcs ha s hs
    simp only [backJmpDisasm] at ha
    split at ha
    · cases ha
      rcases List.mem_singleton.mp hs with rfl
      decide
    · cases ha
  ⟨by decide, by decide, hsrc, by decide, by decide,
   expandProlSelfJmps_covers_sources backJmpDisasm backJmpFunc (plainInst 0x5000 1)
     [plainInst 0x5001 2, plainInst 0x5003 3] 5 6
     { prol := [plainInst 0x5000 1, plainInst 0x5001 2, plainInst 0x5003 3,
         jmpInst 0x5006 2 1 0x5001],
       minProlSz := 8, roundProlSz := 8 }
     (by decide) (by decide) hsrc (by decide) (by decide)⟩

/-! ## Properties of `writeNop` -/

/-- The byte `mem_copy` leaves at an address. -/
theorem mem_copy_apply (mem : Memory) (dest : Nat) (src : List Nat) (a : Nat) :
    mem_copy mem dest src a =
      if dest ≤ a ∧ a < dest + src.length then src.getD (a - dest) 0 else mem a := rfl

/-- The bytes the loop of `writeNop` has stored after `n` iterations. -/
theorem writeNop_loop (base : Nat) :
    ∀ (n : Nat) (mem : Memory), base + 2 * n ≤ U64 → ∀ a : Nat,
      ((List.range n).foldl
          (fun mem i => mem_copy mem ((base + i * 2) % U64) [0x66, 0x90]) mem) a =
        if base ≤ a ∧ a < base + 2 * n then (if (a - base) % 2 = 0 then 0x66 else 0x90)
        else mem a := by
  intro n
  induction n with
  | zero =>
    intro mem _ a
    simp only [List.range_zero, List.foldl_nil]
    rw [if_neg (by omega)]
  | succ n ih =>
    intro mem hfit a
    rw [List.range_succ, List.foldl_append]
    simp only [List.foldl_cons, List.foldl_nil]
    have hd : (base + n * 2) % U64 = base + n * 2 := Nat.mod_eq_of_lt (by omega)
    rw [hd, mem_copy_apply, ih mem (by omega) a]
    simp only [List.length_cons, List.length_nil]
    by_cases h0 : a = base + n * 2
    · subst h0
      have e : base + n * 2 - (base + n * 2) = 0 := by omega
      rw [e]
      simp only [List.getD_cons_zero]
      split_ifs <;> first | rfl | omega
    · by_cases h1 : a = base + n * 2 + 1
      · subst h1
        have e : base + n * 2 + 1 - (base + n * 2) = 1 := by omega
        rw [e]
        simp only [List.getD_cons_succ, List.getD_cons_zero]
        split_ifs <;> first | rfl | omega
      · split_ifs <;> first | rfl | omega

/-- The byte `writeNop` leaves at every address. -/
theorem writeNop_apply (mem : Memory) (base size : Nat) (hfit : base + size ≤ U64)
    (a : Nat) :
    writeNop mem base size a =
      if base ≤ a ∧ a < base + size then
        (if a - base < 2 * (size / 2) ∧ (a - base) % 2 = 0 then 0x66 else 0x90)
      else mem a := by
  unfold writeNop
  by_cases h2 : size ≥ 2
  · rw [if_pos h2]
    have hfat : base + 2 * (size / 2) ≤ U64 := by omega
    by_cases hodd : size % 2 = 0
    · have hl : (size % 2 != 0) = false := by simp [hodd]
      simp only [hl, Bool.false_eq_true, if_false]
      rw [writeNop_loop base (size / 2) mem hfat a]
      split_ifs <;> first | rfl | omega
    · have h1 : size % 2 = 1 := by omega
      have hl : (size % 2 != 0) = true := by simp [h1]
      simp only [hl, if_true]
      have hd : (base + size / 2 * 2) % U64 = base + size / 2 * 2 :=
        Nat.mod_eq_of_lt (by omega)
      rw [hd, mem_copy_apply, writeNop_loop base (size / 2) mem hfat a]
      simp only [List.length_cons, List.length_nil]
      by_cases h0 : a = base + size / 2 * 2
      · subst h0
        have e : base + size / 2 * 2 - (base + size / 2 * 2) = 0 := by omega
        rw [e]
        simp only [List.getD_cons_zero]
        split_ifs <;> first | rfl | omega
      · split_ifs <;> first | rfl | omega
  · rw [if_neg h2]
    by_cases h1 : size = 1
    · subst h1
      rw [if_pos rfl, mem_copy_apply]
      simp only [List.length_cons, List.length_nil]
      by_cases h0 : a = base
      · subst h0
        simp
      · split_ifs <;> first | rfl | omega
    · rw [if_neg h1]
      split_ifs <;> first | rfl | omega

/-- The `k`-th byte of `n` repetitions of a two-byte unit. -/
theorem flatten_replicate_pair_getElem? (x y : Nat) :
    ∀ (n k : Nat), ((List.replicate n [x, y]).flatten)[k]? =
      if k < 2 * n then some (if k % 2 = 0 then x else y) else none := by
  intro n
  induction n with
  | zero => intro k; simp
  | succ n ih =>
    intro k
    rw [List.replicate_succ, List.flatten_cons]
    match k with
    | 0 => simp
    | 1 => simp; omega
    | k + 2 =>
      have e : ([x, y] ++ (List.replicate n [x, y]).flatten)[k + 2]? =
          ((List.replicate n [x, y]).flatten)[k]? := by
        simp
      rw [e, ih k]
      have e2 : (k + 2) % 2 = k % 2 := by omega
      rw [e2]
      split_ifs <;> first | rfl | omega

/-- The length of `n` repetitions of a two-byte unit. -/
theorem length_flatten_replicate_pair (x y : Nat) (n : Nat) :
    ((List.replicate n [x, y]).flatten).length = 2 * n := by
  induction n with
  | zero => simp
  | succ n ih =>
    rw [List.replicate_succ, List.flatten_cons, List.length_append, ih]
    simp only [List.length_cons, List.length_nil]
    omega

/-- The bytes of the filled region, read back as a list. -/
theorem readBytes_writeNop (mem : Memory) (base size : Nat) (hfit : base + size ≤ U64) :
    readBytes (writeNop mem base size) base size =
      (List.replicate (size / 2) [0x66, 0x90]).flatten ++
        (if size % 2 = 1 then [0x90] else []) := by
  apply List.ext_getElem?
  intro k
  simp only [readBytes, List.getElem?_map, List.getElem?_range]
  by_cases hk : k < 2 * (size / 2)
  · rw [List.getElem?_append_left (by rw [length_flatten_replicate_pair]; exact hk),
      flatten_replicate_pair_getElem?, if_pos hk]
    have hks : k < size := by omega
    rw [List.getElem?_range hks]
    simp only [Option.map_some', writeNop_apply mem base size hfit]
    have e : base + k - base = k := by omega
    rw [e]
    split_ifs <;> first | rfl | omega
  · rw [List.getElem?_append_right (by rw [length_flatten_replicate_pair]; omega),
      length_flatten_replicate_pair]
    by_cases hks : k < size
    · have h1 : size % 2 = 1 := by omega
      have e0 : k - 2 * (size / 2) = 0 := by omega
      rw [List.getElem?_range hks, if_pos h1, e0]
      simp only [Option.map_some', writeNop_apply mem base size hfit]
      have e : base + k - base = k := by omega
      rw [e]
      simp only [List.getElem?_cons_zero]
      split_ifs <;> first | rfl | omega
    · have hn : (List.range size)[k]? = none := by
        rw [List.getElem?_eq_none_iff]
        simp only [List.length_range]
        omega
      rw [hn]
      simp only [Option.map_none']
      symm
      rw [List.getElem?_eq_none_iff]
      split_ifs <;> first | (simp; done) | (simp; omega)

/-- C10: for a region `[base, base + size)` of the 64-bit address space,
`writeNop` leaves every byte outside the region unchanged and fills the region
with `size / 2` repetitions of `0x66 0x90` followed by one `0x90` when `size` is
odd; so size 0 changes nothing, size 1 writes `[0x90]` and size 5 writes
`[0x66, 0x90, 0x66, 0x90, 0x90]`. -/
theorem writeNop_fills_region (mem : Memory) (base size : Nat) (hfit : base + size ≤ U64) :
    (∀ a : Nat, ¬ (base ≤ a ∧ a < base + size) → writeNop mem base size a = mem a) ∧
    readBytes (writeNop mem base size) base size =
      (List.replicate (size / 2) [0x66, 0x90]).flatten ++
        (if size % 2 = 1 then [0x90] else []) ∧
    (size = 0 → writeNop mem base size = mem) ∧
    (size = 1 → readBytes (writeNop mem base size) base size = [0x90]) ∧
    (size = 5 →
      readBytes (writeNop mem base size) base size = [0x66, 0x90, 0x66, 0x90, 0x90]) := by
  refine ⟨fun a ha => ?_, readBytes_writeNop mem base size hfit, ?_, ?_, ?_⟩
  · rw [writeNop_apply mem base size hfit a, if_neg ha]
  · rintro rfl
    rfl
  · rintro rfl
    rw [readBytes_writeNop mem base 1 hfit]
    rfl
  · rintro rfl
    rw [readBytes_writeNop mem base 5 hfit]
    rfl

/-- Witness for C10: five bytes at `0x1000` of a zeroed memory. -/
theorem writeNop_fills_region_witness :
    0x1000 + 5 ≤ U64 ∧
    ((∀ a : Nat, ¬ (0x1000 ≤ a ∧ a < 0x1000 + 5) →
        writeNop (fun _ => 0) 0x1000 5 a = (fun _ => 0) a) ∧
      readBytes (writeNop (fun _ => 0) 0x1000 5) 0x1000 5 =
        (List.replicate (5 / 2) [0x66, 0x90]).flatten ++
          (if 5 % 2 = 1 then [0x90] else []) ∧
      (5 = 0 → writeNop (fun _ => 0) 0x1000 5 = (fun _ => 0)) ∧
      (5 = 1 → readBytes (writeNop (fun _ => 0) 0x1000 5) 0x1000 5 = [0x90]) ∧
      (5 = 5 →
        readBytes (writeNop (fun _ => 0) 0x1000 5) 0x1000 5
          = [0x66, 0x90, 0x66, 0x90, 0x90])) :=
  ⟨by decide, writeNop_fills_region (fun _ => 0) 0x1000 5 (by decide)⟩

/-! ## Properties of `followJmp` -/

/-- The recursion of `followJmp` does not run out of fuel when the fuel exceeds
the distance of `curDepth` to `maxDepth`. -/
theorem followJmpAux_isSome (disasm : Disassembler) (maxDepth : Nat) :
    ∀ (fuel : Nat) (functionInsts : insts_t) (curDepth jumps : Nat),
      1 ≤ fuel → maxDepth < curDepth + fuel →
      (followJmpAux disasm maxDepth fuel functionInsts curDepth jumps).isSome = true := by
  intro fuel
  induction fuel with
  | zero => intro functionInsts curDepth jumps h1 _; omega
  | succ fuel ih =>
    intro functionInsts curDepth jumps _ h
    cases functionInsts with
    | nil => simp [followJmpAux]
    | cons front tl =>
      simp only [followJmpAux]
      split
      · rfl
      · split
        · rfl
        · split
          · rfl
          · exact ih _ _ _ (by omega) (by omega)

/-- On every input `followJmp` returns: the recursion ends within the fuel it
is given. -/
theorem followJmp_isSome (disasm : Disassembler) (functionInsts : insts_t)
    (curDepth maxDepth : Nat) :
    (followJmp disasm functionInsts curDepth maxDepth).isSome = true :=
  followJmpAux_isSome disasm maxDepth _ functionInsts curDepth 0 (by omega) (by omega)

/-- Invariant of the recursion of `followJmp`: a result `true` is returned on a
non-empty stream whose first instruction is not branching, at a depth below
`maxDepth`, and the ghost counter has grown by the number of levels descended. -/
theorem followJmpAux_ok (disasm : Disassembler) (maxDepth : Nat) :
    ∀ (fuel : Nat) (functionInsts : insts_t) (curDepth jumps : Nat) (r : FollowResult),
      followJmpAux disasm maxDepth fuel functionInsts curDepth jumps = some r →
      r.ok = true →
      (∃ front tl, r.functionInsts = front :: tl ∧ front.isBranching = false) ∧
        jumps ≤ r.jumps ∧ curDepth + (r.jumps - jumps) < maxDepth := by
  intro fuel
  induction fuel with
  | zero => intro functionInsts curDepth jumps r h; simp [followJmpAux] at h
  | succ fuel ih =>
    intro functionInsts curDepth jumps r h hok
    cases functionInsts with
    | nil =>
      simp only [followJmpAux, Option.some.injEq] at h
      subst h
      simp at hok
    | cons front tl =>
      simp only [followJmpAux] at h
      split at h
      · simp only [Option.some.injEq] at h
        subst h
        simp at hok
      · rename_i hdepth
        split at h
        · rename_i hnb
          simp only [Option.some.injEq] at h
          subst h
          refine ⟨⟨front, tl, rfl, by simpa using hnb⟩, le_refl _, ?_⟩
          simp only [Nat.sub_self, Nat.add_zero]
          omega
        · split at h
          · simp only [Option.some.injEq] at h
            subst h
            simp at hok
          · obtain ⟨hs, hj, hd⟩ := ih _ _ _ r h hok
            exact ⟨hs, by omega, by omega⟩

/-- A chain of jumps with displacement that is at least `maxDepth` long makes
`followJmp` fail: started on the `k`-th stream of the chain at depth `k`, the
recursion returns false. -/
theorem followJmpAux_chain (disasm : Disassembler) (start : insts_t) (maxDepth : Nat)
    (hchain : ∀ k, k < maxDepth → ∃ front tl, followedStream disasm start k = front :: tl ∧
      front.isBranching = true ∧ front.hasDisplacement = true) :
    ∀ (fuel k jumps : Nat) (r : FollowResult),
      followJmpAux disasm maxDepth fuel (followedStream disasm start k) k jumps = some r →
      r.ok = false := by
  intro fuel
  induction fuel with
  | zero => intro k jumps r h; simp [followJmpAux] at h
  | succ fuel ih =>
    intro k jumps r h
    cases hs : followedStream disasm start k with
    | nil =>
      rw [hs] at h
      simp only [followJmpAux, Option.some.injEq] at h
      subst h
      rfl
    | cons front tl =>
      rw [hs] at h
      simp only [followJmpAux] at h
      split at h
      · simp only [Option.some.injEq] at h
        subst h
        rfl
      · rename_i hdepth
        obtain ⟨f, t, hf, hb, hd⟩ := hchain k (by omega)
        rw [hs] at hf
        cases hf
        simp only [hb, hd, Bool.not_true, Bool.false_eq_true, if_false] at h
        have hnext : followedStream disasm start (k + 1) =
            disasm.disassemble front.destination front.destination
              ((front.destination + 100) % U64) := by
          simp only [followedStream, hs]
        rw [← hnext] at h
        exact ih (k + 1) (jumps + 1) r h

/-- C11 (as amended): on a stream whose first instruction is not branching and
for `curDepth < maxDepth`, `followJmp` returns true, leaves the stream
unmodified and follows no jump. -/
theorem followJmp_nonBranching (disasm : Disassembler) (front : Instruction)
    (tl : insts_t) (curDepth maxDepth : Nat)
    (hb : front.isBranching = false) (hdepth : curDepth < maxDepth) :
    followJmp disasm (front :: tl) curDepth maxDepth
      = some { ok := true, functionInsts := front :: tl, jumps := 0 } := by
  simp only [followJmp, followJmpAux]
  rw [if_neg (by omega)]
  simp [hb]

/-- Witness for C11: the function body at `0x300` with the default depths 0 and 3. -/
theorem followJmp_nonBranching_witness :
    (plainInst 0x300 1).isBranching = false ∧ 0 < 3 ∧
    followJmp thunkDisasm (plainInst 0x300 1 :: [plainInst 0x301 3]) 0 3
      = some { ok := true, functionInsts := plainInst 0x300 1 :: [plainInst 0x301 3],
               jumps := 0 } :=
  ⟨rfl, by decide,
   followJmp_nonBranching thunkDisasm (plainInst 0x300 1) [plainInst 0x301 3] 0 3 rfl
     (by decide)⟩

/-- Counterexample to C11 as stated: with `curDepth = maxDepth = 0` the depth
test comes first and `followJmp` returns false on a stream whose first
instruction is not branching. -/
theorem followJmp_nonBranching_at_max_depth :
    (plainInst 0x300 1).isBranching = false ∧
    followJmp thunkDisasm [plainInst 0x300 1, plainInst 0x301 3] 0 0
      = some { ok := false, functionInsts := [plainInst 0x300 1, plainInst 0x301 3],
               jumps := 0 } := by
  decide

/-- C12: if each of the first `maxDepth` streams that `followJmp` reaches from
`start` is non-empty and begins with a branch with displacement, then
`followJmp` started at depth 0 returns false. -/
theorem followJmp_chain_fails (disasm : Disassembler) (start : insts_t) (maxDepth : Nat)
    (hchain : ∀ k, k < maxDepth → ∃ front tl, followedStream disasm start k = front :: tl ∧
      front.isBranching = true ∧ front.hasDisplacement = true) :
    ∃ r, followJmp disasm start 0 maxDepth = some r ∧ r.ok = false := by
  have hsome := followJmp_isSome disasm start 0 maxDepth
  obtain ⟨r, hr⟩ := Option.isSome_iff_exists.mp hsome
  refine ⟨r, hr, ?_⟩
  exact followJmpAux_chain disasm start maxDepth hchain _ 0 0 r hr

/-- Witness for C12: the chain of two thunks at `0x100` and `0x200` with
`maxDepth = 2`. -/
theorem followJmp_chain_fails_witness :
    (∀ k, k < 2 → ∃ front tl,
      followedStream thunkDisasm [jmpInst 0x100 5 4 0x200] k = front :: tl ∧
        front.isBranching = true ∧ front.hasDisplacement = true) ∧
    ∃ r, followJmp thunkDisasm [jmpInst 0x100 5 4 0x200] 0 2 = some r ∧ r.ok = false :=
  have hchain : ∀ k, k < 2 → ∃ front tl,
      followedStream thunkDisasm [jmpInst 0x100 5 4 0x200] k = front :: tl ∧
        front.isBranching = true ∧ front.hasDisplacement = true := by
    intro k hk
    interval_cases k
    · exact ⟨jmpInst 0x100 5 4 0x200, [], rfl, rfl, rfl⟩
    · exact ⟨jmpInst 0x200 5 4 0x300, [], by decide, rfl, rfl⟩
  ⟨hchain, followJmp_chain_fails thunkDisasm [jmpInst 0x100 5 4 0x200] 2 hchain⟩

/-- C19: whenever `followJmp` returns true, the stream it leaves in
`functionInsts` is non-empty, its first instruction is not branching, and the
number of jumps followed is strictly less than `maxDepth - curDepth`. -/
theorem followJmp_ok (disasm : Disassembler) (functionInsts : insts_t)
    (curDepth maxDepth : Nat) (r : FollowResult)
    (h : followJmp disasm functionInsts curDepth maxDepth = some r)
    (hok : r.ok = true) :
    (∃ front tl, r.functionInsts = front :: tl ∧ front.isBranching = false) ∧
      r.jumps < maxDepth - curDepth := by
  obtain ⟨hs, _, hd⟩ := followJmpAux_ok disasm maxDepth _ functionInsts curDepth 0 r h hok
  exact ⟨hs, by omega⟩

/-- Witness for C19: the chain of two thunks resolved with `maxDepth = 3`. -/
theorem followJmp_ok_witness :
    followJmp thunkDisasm [jmpInst 0x100 5 4 0x200] 0 3
      = some { ok := true, functionInsts := [plainInst 0x300 1, plainInst 0x301 3],
               jumps := 2 } ∧
    (FollowResult.mk true [plainInst 0x300 1, plainInst 0x301 3] 2).ok = true ∧
    ((∃ front tl, (FollowResult.mk true [plainInst 0x300 1, plainInst 0x301 3] 2).functionInsts
          = front :: tl ∧ front.isBranching = false) ∧
      (FollowResult.mk true [plainInst 0x300 1, plainInst 0x301 3] 2).jumps < 3 - 0) :=
  ⟨by decide, rfl,
   followJmp_ok thunkDisasm [jmpInst 0x100 5 4 0x200] 0 3
     { ok := true, functionInsts := [plainInst 0x300 1, plainInst 0x301 3], jumps := 2 }
     (by decide) rfl⟩

/-! ## Properties of `unHook` and `reHook` -/

/-- What `unHook` does to a hooked state: it returns true, the memory is the
old one with the original instructions written back, the hooked flag is
cleared and the members `reHook` reads are as before. -/
theorem unHook_hooked (getBytes : Instruction → List Nat) (s : Detour)
    (h : s.m_hooked = true) :
    (unHook getBytes s).1 = true ∧
    (unHook getBytes s).2.mem = writeEncoding getBytes s.mem s.m_originalInsts ∧
    (unHook getBytes s).2.m_hooked = false ∧
    (unHook getBytes s).2.m_hookInsts = s.m_hookInsts ∧
    (unHook getBytes s).2.m_fnAddress = s.m_fnAddress ∧
    (unHook getBytes s).2.m_nopProlOffset = s.m_nopProlOffset ∧
    (unHook getBytes s).2.m_nopSize = s.m_nopSize := by
  unfold unHook
  simp only [h, Bool.not_true, Bool.false_eq_true, if_false]
  cases s.m_userTrampVar <;> by_cases ht : s.m_trampoline = 0 <;> simp [ht]

/-- The function `writeEncoding` leaves the bytes it does not encode as they were. -/
theorem writeEncoding_of_not_encoded (getBytes : Instruction → List Nat) :
    ∀ (insts : insts_t) (mem : Memory) (a : Nat), ¬ Encoded getBytes insts a →
      writeEncoding getBytes mem insts a = mem a := by
  intro insts
  induction insts with
  | nil => intro mem a _; rfl
  | cons inst insts ih =>
    intro mem a hn
    simp only [writeEncoding, List.foldl_cons] at ih ⊢
    rw [ih _ a (fun ⟨i, hi, hr⟩ => hn ⟨i, List.mem_cons_of_mem _ hi, hr⟩), mem_copy_apply,
      if_neg (fun hr => hn ⟨inst, List.mem_cons_self _ _, hr⟩)]

/-- The bytes `writeEncoding` stores do not depend on the memory written to:
two memories that agree at `a`, or any two memories when `a` is encoded, agree
at `a` afterwards. -/
theorem writeEncoding_congr (getBytes : Instruction → List Nat) :
    ∀ (insts : insts_t) (m₁ m₂ : Memory) (a : Nat),
      m₁ a = m₂ a ∨ Encoded getBytes insts a →
      writeEncoding getBytes m₁ insts a = writeEncoding getBytes m₂ insts a := by
  intro insts
  induction insts with
  | nil =>
    intro m₁ m₂ a h
    rcases h with h | ⟨i, hi, _⟩
    · exact h
    · simp at hi
  | cons inst insts ih =>
    intro m₁ m₂ a h
    simp only [writeEncoding, List.foldl_cons] at ih ⊢
    apply ih
    by_cases hr : inst.address ≤ a ∧ a < inst.address + (getBytes inst).length
    · left
      rw [mem_copy_apply, mem_copy_apply, if_pos hr, if_pos hr]
    · rcases h with h | ⟨i, hi, hir⟩
      · left
        rw [mem_copy_apply, mem_copy_apply, if_neg hr, if_neg hr, h]
      · rcases List.mem_cons.mp hi with rfl | hi
        · exact absurd hir hr
        · exact Or.inr ⟨i, hi, hir⟩

/-- C13 (as amended): `reHook` returns true and leaves the hooked flag `m_hooked`
as it was, so that a following `unHook` succeeds exactly when the state was
Hooked before `reHook`. -/
theorem reHook_keeps_hooked_flag (getBytes : Instruction → List Nat) (s : Detour) :
    (reHook getBytes s).1 = true ∧
    (reHook getBytes s).2.m_hooked = s.m_hooked ∧
    (unHook getBytes (reHook getBytes s).2).1 = s.m_hooked := by
  refine ⟨rfl, rfl, ?_⟩
  unfold unHook reHook
  cases h : s.m_hooked <;> simp [h]

/-- Counterexample to C13 as stated: from the Hooked state `hookedState`,
`unHook` succeeds, `reHook` returns true but leaves `m_hooked` false, and the
further `unHook` returns false. -/
theorem reHook_after_unHook_not_hooked :
    hookedState.m_hooked = true ∧
    (unHook exampleBytes hookedState).1 = true ∧
    (reHook exampleBytes (unHook exampleBytes hookedState).2).1 = true ∧
    (reHook exampleBytes (unHook exampleBytes hookedState).2).2.m_hooked = false ∧
    (unHook exampleBytes (reHook exampleBytes (unHook exampleBytes hookedState).2).2).1
      = false := by
  decide

/-- C14: in a state in which `m_hooked` is false, `unHook` (assertions compiled
out) returns false and leaves the whole state as it is: process memory,
`m_trampoline`, `m_userTrampVar`, the caller's variables and `m_hooked`. -/
theorem unHook_not_hooked (getBytes : Instruction → List Nat) (s : Detour)
    (h : s.m_hooked = false) :
    unHook getBytes s = (false, s) := by
  unfold unHook
  simp [h]

/-- Witness for C14: `hookedState` with the hooked flag cleared. -/
theorem unHook_not_hooked_witness :
    ({ hookedState with m_hooked := false } : Detour).m_hooked = false ∧
    unHook exampleBytes { hookedState with m_hooked := false }
      = (false, { hookedState with m_hooked := false }) :=
  ⟨rfl, unHook_not_hooked exampleBytes { hookedState with m_hooked := false } rfl⟩

/-- C15: in a Hooked state whose memory is some memory `m0` with the encoding
of `m_hookInsts` and then the NOP fill of `m_nopSize` bytes at
`m_fnAddress + m_nopProlOffset` written into it, and in which those writes
cover every byte of the original instructions, `unHook` followed by `reHook`
both succeed and leave the process memory identical to the memory before
`unHook`. -/
theorem unHook_reHook_memory (getBytes : Instruction → List Nat) (s : Detour) (m0 : Memory)
    (hhooked : s.m_hooked = true)
    (hfit : (s.m_fnAddress + s.m_nopProlOffset) % U64 + s.m_nopSize ≤ U64)
    (hinstalled : s.mem =
      writeNop (writeEncoding getBytes m0 s.m_hookInsts)
        ((s.m_fnAddress + s.m_nopProlOffset) % U64) s.m_nopSize)
    (hcover : ∀ a, Encoded getBytes s.m_originalInsts a →
      Encoded getBytes s.m_hookInsts a ∨
        ((s.m_fnAddress + s.m_nopProlOffset) % U64 ≤ a ∧
          a < (s.m_fnAddress + s.m_nopProlOffset) % U64 + s.m_nopSize)) :
    (unHook getBytes s).1 = true ∧
    (reHook getBytes (unHook getBytes s).2).1 = true ∧
    (reHook getBytes (unHook getBytes s).2).2.mem = s.mem := by
  obtain ⟨h1, hmem, _, hhi, hfn, hoff, hsz⟩ := unHook_hooked getBytes s hhooked
  refine ⟨h1, rfl, ?_⟩
  funext a
  simp only [reHook, hmem, hhi, hfn, hoff, hsz]
  rw [hinstalled, writeNop_apply _ _ _ hfit a, writeNop_apply _ _ _ hfit a]
  by_cases hnop : (s.m_fnAddress + s.m_nopProlOffset) % U64 ≤ a ∧
      a < (s.m_fnAddress + s.m_nopProlOffset) % U64 + s.m_nopSize
  · rw [if_pos hnop, if_pos hnop]
  · rw [if_neg hnop, if_neg hnop]
    apply writeEncoding_congr
    by_cases henc : Encoded getBytes s.m_hookInsts a
    · exact Or.inr henc
    · left
      have horig : ¬ Encoded getBytes s.m_originalInsts a := by
        intro ho
        rcases hcover a ho with h | h
        · exact henc h
        · exact hnop h
      rw [writeEncoding_of_not_encoded getBytes _ _ a horig, writeNop_apply _ _ _ hfit a,
        if_neg hnop, writeEncoding_of_not_encoded getBytes _ _ a henc]

/-- Witness for C15: `hookedState`, whose memory is a memory of `0xFF` bytes with
the 5-byte jump at `0x1000` and the 2-byte NOP fill at `0x1005` written into it. -/
theorem unHook_reHook_memory_witness :
    hookedState.m_hooked = true ∧
    (hookedState.m_fnAddress + hookedState.m_nopProlOffset) % U64 + hookedState.m_nopSize
      ≤ U64 ∧
    hookedState.mem =
      writeNop (writeEncoding exampleBytes (fun _ => 0xFF) hookedState.m_hookInsts)
        ((hookedState.m_fnAddress + hookedState.m_nopProlOffset) % U64)
        hookedState.m_nopSize ∧
    (∀ a, Encoded exampleBytes hookedState.m_originalInsts a →
      Encoded exampleBytes hookedState.m_hookInsts a ∨
        ((hookedState.m_fnAddress + hookedState.m_nopProlOffset) % U64 ≤ a ∧
          a < (hookedState.m_fnAddress + hookedState.m_nopProlOffset) % U64
            + hookedState.m_nopSize)) ∧
    ((unHook exampleBytes hookedState).1 = true ∧
      (reHook exampleBytes (unHook exampleBytes hookedState).2).1 = true ∧
      (reHook exampleBytes (unHook exampleBytes hookedState).2).2.mem = hookedState.mem) :=
  have hcover : ∀ a, Encoded exampleBytes hookedState.m_originalInsts a →
      Encoded exampleBytes hookedState.m_hookInsts a ∨
        ((hookedState.m_fnAddress + hookedState.m_nopProlOffset) % U64 ≤ a ∧
          a < (hookedState.m_fnAddress + hookedState.m_nopProlOffset) % U64
            + hookedState.m_nopSize) := by
    rintro a ⟨inst, hin, hlo, hhi⟩
    have hbase : (hookedState.m_fnAddress + hookedState.m_nopProlOffset) % U64 = 0x1005 := by
      decide
    have hsz : hookedState.m_nopSize = 2 := rfl
    rw [hbase, hsz]
    have hrange : 0x1000 ≤ a ∧ a < 0x1007 := by
      simp only [hookedState, List.mem_cons, List.mem_singleton, List.not_mem_nil,
        or_false] at hin
      rcases hin with rfl | rfl
      · simp only [exampleBytes, plainInst, List.length_replicate] at hlo hhi
        omega
      · simp only [exampleBytes, plainInst, List.length_replicate] at hlo hhi
        omega
    by_cases h5 : a < 0x1005
    · left
      refine ⟨jmpInst 0x1000 5 4 0x9000, by simp [hookedState], ?_, ?_⟩
      · simp only [jmpInst]
        omega
      · simp only [exampleBytes, jmpInst, List.length_replicate]
        omega
    · right
      omega
  ⟨rfl, by decide, rfl, hcover,
   unHook_reHook_memory exampleBytes hookedState (fun _ => 0xFF) rfl (by decide) rfl hcover⟩

/-! ## Further properties of `calcNearestSz` and `expandProlSelfJmps` -/

/-- A prefix of a stream is no larger than the stream. -/
theorem totalSize_le_of_prefix (p l : insts_t) (h : p <+: l) : totalSize p ≤ totalSize l := by
  obtain ⟨t, rfl⟩ := h
  rw [totalSize_append]
  omega

/-- Every instruction of a contiguous stream starts no earlier than the stream. -/
theorem Contiguous.start_le :
    ∀ (l : insts_t) (start : Nat), Contiguous start l →
      ∀ t ∈ l, start ≤ t.address := by
  intro l
  induction l with
  | nil => intro start _ t ht; simp at ht
  | cons i l ih =>
    intro start hc t ht
    obtain ⟨ha, hc⟩ := hc
    rcases List.mem_cons.mp ht with rfl | ht
    · omega
    · have := ih _ hc t ht
      omega

/-- A prefix of a contiguous stream is contiguous. -/
theorem Contiguous.of_prefix :
    ∀ (p l : insts_t) (start : Nat), p <+: l → Contiguous start l → Contiguous start p := by
  intro p
  induction p with
  | nil => intro l start _ _; trivial
  | cons i p ih =>
    intro l start hp hc
    cases l with
    | nil => simp at hp
    | cons j l =>
      obtain ⟨hij, hpl⟩ := List.cons_prefix_cons.mp hp
      subst hij
      exact ⟨hc.1, ih l _ hpl hc.2⟩

/-- Loop invariant of `expandProlSelfJmps`: the window is a prefix of the
function of total size `roundProlSz`, and `roundProlSz` is not below
`minProlSz`. -/
theorem expandLoop_window (disasm : Disassembler) (func : insts_t) (prolStart : Nat) :
    ∀ (fuel i maxAddr : Nat) (st res : ProlState),
      st.prol <+: func → totalSize st.prol = st.roundProlSz →
      st.minProlSz ≤ st.roundProlSz →
      expandLoop disasm func prolStart fuel i maxAddr st = some (true, res) →
      res.prol <+: func ∧ totalSize res.prol = res.roundProlSz ∧
        res.minProlSz ≤ res.roundProlSz := by
  intro fuel
  induction fuel with
  | zero => intro i maxAddr st res _ _ _ h; simp [expandLoop] at h
  | succ fuel ih =>
    intro i maxAddr st res hp hs hm h
    simp only [expandLoop] at h
    split at h
    · split at h
      · exact ih _ _ st res hp hs hm h
      · split at h
        · simp at h
        · rename_i prol roundProlSz hcalc
          obtain ⟨hp2, hs2, hm2⟩ := calcNearestSz_some _ _ _ _ _ hcalc
          exact ih _ _ _ res hp2 hs2 hm2 h
    · simp only [Option.some.injEq, Prod.mk.injEq, true_and] at h
      subst h
      exact ⟨hp, hs, hm⟩

/-- C16: if the total size of the whole stream is below the required minimum,
`calcNearestSz` returns no window, and the value it writes to
`prolOvrwEndOffset` is the total size of the instructions its loop scanned, a
prefix of the stream. -/
theorem calcNearestSz_stream_too_short (disasm : Disassembler) (functionInsts : insts_t)
    (prolOvrwStartOffset : Nat) (h : totalSize functionInsts < prolOvrwStartOffset) :
    ∃ scanned : insts_t, scanned <+: functionInsts ∧
      calcNearestSzLoop disasm prolOvrwStartOffset functionInsts 0 [] false
        = (totalSize scanned, scanned) ∧
      calcNearestSz disasm functionInsts prolOvrwStartOffset = (none, totalSize scanned) := by
  obtain ⟨w, hw, he⟩ :=
    calcNearestSzLoop_eq disasm prolOvrwStartOffset functionInsts 0 [] false
  simp only [Nat.zero_add, List.nil_append] at he
  refine ⟨w, hw, he, ?_⟩
  have hle := totalSize_le_of_prefix w functionInsts hw
  simp only [calcNearestSz, he]
  rw [if_neg (by omega)]

/-- Witness for C16: a stream of 3 bytes and a required minimum of 5. -/
theorem calcNearestSz_stream_too_short_witness :
    totalSize [plainInst 0x3000 2, plainInst 0x3002 1] < 5 ∧
    ∃ scanned : insts_t, scanned <+: [plainInst 0x3000 2, plainInst 0x3002 1] ∧
      calcNearestSzLoop exampleDisasm 5 [plainInst 0x3000 2, plainInst 0x3002 1] 0 [] false
        = (totalSize scanned, scanned) ∧
      calcNearestSz exampleDisasm [plainInst 0x3000 2, plainInst 0x3002 1] 5
        = (none, totalSize scanned) :=
  ⟨by decide,
   calcNearestSz_stream_too_short exampleDisasm [plainInst 0x3000 2, plainInst 0x3002 1] 5
     (by decide)⟩

/-- C17: for a function stream with contiguous addresses and an entry state in
which `prol` is a prefix of the function with total size `roundProlSz` and
`roundProlSz ≥ minProlSz`, whenever `expandProlSelfJmps` returns true the final
state satisfies `roundProlSz ≥ minProlSz` and every instruction of the final
window lies within `[prolStart, prolStart + roundProlSz)`. -/
theorem expandProlSelfJmps_window_invariant (disasm : Disassembler) (func : insts_t)
    (first : Instruction) (rest : insts_t) (minProlSz roundProlSz : Nat) (st : ProlState)
    (hcont : Contiguous first.address func)
    (hpre : first :: rest <+: func)
    (hsz : totalSize (first :: rest) = roundProlSz)
    (hmin : minProlSz ≤ roundProlSz)
    (h : expandProlSelfJmps disasm (first :: rest) func minProlSz roundProlSz
      = some (true, st)) :
    st.minProlSz ≤ st.roundProlSz ∧
    ∀ t ∈ st.prol, first.address ≤ t.address ∧
      t.address + t.size ≤ first.address + st.roundProlSz := by
  simp only [expandProlSelfJmps] at h
  obtain ⟨hp, hs, hm⟩ := expandLoop_window disasm func first.address _ 0 0 _ st hpre hsz hmin h
  refine ⟨hm, fun t ht => ?_⟩
  have hc := Contiguous.of_prefix st.prol func first.address hp hcont
  have h1 := Contiguous.start_le st.prol first.address hc t ht
  have h2 := Contiguous.end_le st.prol first.address hc t ht
  omega

/-- Witness for C17: the window of `backJmpFunc` that grows from three to four
instructions. -/
theorem expandProlSelfJmps_window_invariant_witness :
    Contiguous (plainInst 0x5000 1).address backJmpFunc ∧
    plainInst 0x5000 1 :: [plainInst 0x5001 2, plainInst 0x5003 3] <+: backJmpFunc ∧
    totalSize (plainInst 0x5000 1 :: [plainInst 0x5001 2, plainInst 0x5003 3]) = 6 ∧
    5 ≤ 6 ∧
    expandProlSelfJmps backJmpDisasm
        (plainInst 0x5000 1 :: [plainInst 0x5001 2, plainInst 0x5003 3]) backJmpFunc 5 6
      = some (true,
          { prol := [plainInst 0x5000 1, plainInst 0x5001 2, plainInst 0x5003 3,
              jmpInst 0x5006 2 1 0x5001],
            minProlSz := 8, roundProlSz := 8 }) ∧
    ((8 : Nat) ≤ 8 ∧
      ∀ t ∈ [plainInst 0x5000 1, plainInst 0x5001 2, plainInst 0x5003 3,
          jmpInst 0x5006 2 1 0x5001],
        (plainInst 0x5000 1).address ≤ t.address ∧
          t.address + t.size ≤ (plainInst 0x5000 1).address + 8) :=
  ⟨by decide, by decide, by decide, by decide, by decide,
   expandProlSelfJmps_window_invariant backJmpDisasm backJmpFunc (plainInst 0x5000 1)
     [plainInst 0x5001 2, plainInst 0x5003 3] 5 6
     { prol := [plainInst 0x5000 1, plainInst 0x5001 2, plainInst 0x5003 3,
         jmpInst 0x5006 2 1 0x5001],
       minProlSz := 8, roundProlSz := 8 }
     (by decide) (by decide) (by decide) (by decide) (by decide)⟩

/-- Apart from the ghost log, the instrumented loop is the loop of
`expandProlSelfJmps`. -/
theorem expandLoopLogged_fst (disasm : Disassembler) (func : insts_t) (prolStart : Nat) :
    ∀ (fuel i maxAddr : Nat) (st : ProlState) (log : List (Nat × Nat)),
      (expandLoopLogged disasm func prolStart fuel i maxAddr st log).map Prod.fst
        = expandLoop disasm func prolStart fuel i maxAddr st := by
  intro fuel
  induction fuel with
  | zero => intro i maxAddr st log; rfl
  | succ fuel ih =>
    intro i maxAddr st log
    simp only [expandLoopLogged, expandLoop]
    split
    · split
      · exact ih _ _ _ _
      · split
        · rfl
        · exact ih _ _ _ _
    · rfl

/-- Invariant of the ghost log: it has one entry per iteration, every entry is
an index below the size of the window at that moment, and the number of entries
never exceeds a bound `N` on the sizes of window and function. -/
theorem expandLoopLogged_log (disasm : Disassembler) (func : insts_t) (prolStart N : Nat)
    (hN : func.length ≤ N) :
    ∀ (fuel i maxAddr : Nat) (st : ProlState) (log : List (Nat × Nat))
      (res : Bool × ProlState) (out : List (Nat × Nat)),
      st.prol.length ≤ N → log.length = i → i ≤ N → (∀ p ∈ log, p.1 < p.2) →
      expandLoopLogged disasm func prolStart fuel i maxAddr st log = some (res, out) →
      out.length ≤ N ∧ ∀ p ∈ out, p.1 < p.2 := by
  intro fuel
  induction fuel with
  | zero => intro i maxAddr st log res out _ _ _ _ h; simp [expandLoopLogged] at h
  | succ fuel ih =>
    intro i maxAddr st log res out hlen hlog hi hall h
    simp only [expandLoopLogged] at h
    split at h
    · rename_i hlt
      have hlog2 : (log ++ [(i, st.prol.length)]).length = i + 1 := by
        rw [List.length_append, hlog]
        rfl
      have hall2 : ∀ p ∈ log ++ [(i, st.prol.length)], p.1 < p.2 := by
        intro p hp
        rcases List.mem_append.mp hp with hp | hp
        · exact hall p hp
        · rw [List.mem_singleton.mp hp]
          exact hlt
      split at h
      · exact ih _ _ _ _ res out hlen hlog2 (by omega) hall2 h
      · split at h
        · simp only [Option.some.injEq, Prod.mk.injEq] at h
          obtain ⟨_, rfl⟩ := h
          exact ⟨by omega, hall2⟩
        · rename_i prol roundProlSz hcalc
          obtain ⟨hp, _, _⟩ := calcNearestSz_some _ _ _ _ _ hcalc
          exact ih _ _ _ _ res out (le_trans hp.length_le hN) hlog2 (by omega) hall2 h
    · simp only [Option.some.injEq, Prod.mk.injEq] at h
      obtain ⟨_, rfl⟩ := h
      exact ⟨by omega, hall⟩

/-- C18: on a non-empty initial window `expandProlSelfJmps` terminates.  Its
loop performs at most as many iterations as the longer of window and function
has instructions, hence, for a window that is a prefix of the function, at most
as many as the function has instructions; every access `prol.at(i)` is in
bounds.  The log lists the accesses, one per iteration, as pairs of `i` and
`prol.size()`. -/
theorem expandProlSelfJmps_terminates (disasm : Disassembler) (first : Instruction)
    (rest func : insts_t) (minProlSz roundProlSz : Nat) :
    ∃ (res : Bool × ProlState) (log : List (Nat × Nat)),
      expandProlSelfJmpsLogged disasm (first :: rest) func minProlSz roundProlSz
        = some (res, log) ∧
      expandProlSelfJmps disasm (first :: rest) func minProlSz roundProlSz = some res ∧
      (∀ p ∈ log, p.1 < p.2) ∧
      log.length ≤ max (first :: rest).length func.length ∧
      (first :: rest <+: func → log.length ≤ func.length) := by
  have hfst := expandLoopLogged_fst disasm func first.address
    ((first :: rest).length + func.length + 1) 0 0
    { prol := first :: rest, minProlSz := minProlSz, roundProlSz := roundProlSz } []
  have hsome := expandProlSelfJmps_isSome disasm first rest func minProlSz roundProlSz
  simp only [expandProlSelfJmps] at hsome
  rw [← hfst] at hsome
  cases hrun : expandLoopLogged disasm func first.address
      ((first :: rest).length + func.length + 1) 0 0
      { prol := first :: rest, minProlSz := minProlSz, roundProlSz := roundProlSz } [] with
  | none => rw [hrun] at hsome; simp at hsome
  | some out =>
    obtain ⟨res, log⟩ := out
    rw [hrun] at hfst
    have hlog := expandLoopLogged_log disasm func first.address
      (max (first :: rest).length func.length) (le_max_right _ _) _ 0 0 _ [] res log
      (le_max_left _ _) rfl (Nat.zero_le _) (by simp) hrun
    refine ⟨res, log, ?_, ?_, hlog.2, hlog.1, fun hpre => ?_⟩
    · simp only [expandProlSelfJmpsLogged]
      exact hrun
    · simp only [expandProlSelfJmps]
      exact hfst.symm
    · have := hlog.1
      rw [max_eq_right hpre.length_le] at this
      exact this

/-- Witness for C18: on `backJmpFunc`, a function of five instructions, the
loop makes four iterations; the window has three instructions at the first two
accesses and four at the last two. -/
theorem expandProlSelfJmps_terminates_witness :
    expandProlSelfJmpsLogged backJmpDisasm
        (plainInst 0x5000 1 :: [plainInst 0x5001 2, plainInst 0x5003 3]) backJmpFunc 5 6
      = some ((true,
          { prol := [plainInst 0x5000 1, plainInst 0x5001 2, plainInst 0x5003 3,
              jmpInst 0x5006 2 1 0x5001],
            minProlSz := 8, roundProlSz := 8 }),
          [(0, 3), (1, 3), (2, 4), (3, 4)]) ∧
    plainInst 0x5000 1 :: [plainInst 0x5001 2, plainInst 0x5003 3] <+: backJmpFunc ∧
    ∃ (res : Bool × ProlState) (log : List (Nat × Nat)),
      expandProlSelfJmpsLogged backJmpDisasm
          (plainInst 0x5000 1 :: [plainInst 0x5001 2, plainInst 0x5003 3]) backJmpFunc 5 6
        = some (res, log) ∧
      expandProlSelfJmps backJmpDisasm
          (plainInst 0x5000 1 :: [plainInst 0x5001 2, plainInst 0x5003 3]) backJmpFunc 5 6
        = some res ∧
      (∀ p ∈ log, p.1 < p.2) ∧
      log.length ≤
        max (plainInst 0x5000 1 :: [plainInst 0x5001 2, plainInst 0x5003 3]).length
          backJmpFunc.length ∧
      (plainInst 0x5000 1 :: [plainInst 0x5001 2, plainInst 0x5003 3] <+: backJmpFunc →
        log.length ≤ backJmpFunc.length) :=
  ⟨by decide, by decide,
   expandProlSelfJmps_terminates backJmpDisasm (plainInst 0x5000 1)
     [plainInst 0x5001 2, plainInst 0x5003 3] backJmpFunc 5 6⟩

/-! ## Further properties of `buildRelocationList` -/

/-- No instruction is selected for two of the three lists. -/
theorem needs_exclusive (prolStart roundProlSz : Nat) (delta : Int) (inst : Instruction) :
    ¬ (needsEntry prolStart roundProlSz delta inst = true ∧
        needsReloc prolStart roundProlSz delta inst = true) ∧
    ¬ (needsEntry prolStart roundProlSz delta inst = true ∧
        needsTranslation delta inst = true) ∧
    ¬ (needsReloc prolStart roundProlSz delta inst = true ∧
        needsTranslation delta inst = true) := by
  simp only [needsEntry, needsReloc, needsTranslation, branchesOut]
  cases h1 : inst.hasDisplacement <;> cases h2 : inst.isBranching <;>
    by_cases h5 : absDelta delta > maxInstDisp inst.dispSize <;>
    by_cases h3 : inst.destination < prolStart <;>
    by_cases h3' : inst.destination > (prolStart + roundProlSz) % U64 <;>
    cases h4 : inst.isCalling <;> cases h6 : inst.isIndirect <;>
    simp [h3, h3', h5]

/-- The number of copies of an instruction in a filtered list. -/
theorem count_filter_eq (p : Instruction → Bool) (l : insts_t) (inst : Instruction) :
    (l.filter p).count inst = if p inst = true then l.count inst else 0 := by
  by_cases h : p inst = true
  · rw [if_pos h, List.count_filter h]
  · rw [if_neg h]
    apply List.count_eq_zero_of_not_mem
    intro hm
    exact h (List.mem_filter.mp hm).2

/-- C20: with the output lists empty on entry, each of the three lists is an
order-preserving subsequence of the prologue, every instruction occurs in the
three lists together at most as often as in the prologue and in at most one of
them, and one loop iteration appends at most one entry.  The prologue is only
read. -/
theorem buildRelocationList_sublists (first : Instruction) (rest : insts_t)
    (roundProlSz : Nat) (delta : Int) (lists : RelocLists)
    (h : buildRelocationList (first :: rest) roundProlSz delta [] [] [] = some lists) :
    lists.instsNeedingEntry.Sublist (first :: rest) ∧
    lists.instsNeedingReloc.Sublist (first :: rest) ∧
    lists.instsNeedingTranslation.Sublist (first :: rest) ∧
    (∀ inst : Instruction,
      lists.instsNeedingEntry.count inst + lists.instsNeedingReloc.count inst +
          lists.instsNeedingTranslation.count inst ≤ (first :: rest).count inst ∧
      ¬ (inst ∈ lists.instsNeedingEntry ∧ inst ∈ lists.instsNeedingReloc) ∧
      ¬ (inst ∈ lists.instsNeedingEntry ∧ inst ∈ lists.instsNeedingTranslation) ∧
      ¬ (inst ∈ lists.instsNeedingReloc ∧ inst ∈ lists.instsNeedingTranslation)) ∧
    (∀ (l : RelocLists) (inst : Instruction),
      (classify first.address roundProlSz delta l inst).instsNeedingEntry.length +
        (classify first.address roundProlSz delta l inst).instsNeedingReloc.length +
        (classify first.address roundProlSz delta l inst).instsNeedingTranslation.length
      ≤ l.instsNeedingEntry.length + l.instsNeedingReloc.length +
          l.instsNeedingTranslation.length + 1) := by
  rw [buildRelocationList_eq] at h
  cases h
  refine ⟨List.filter_sublist _, List.filter_sublist _, List.filter_sublist _,
    fun inst => ?_, fun l inst => ?_⟩
  · obtain ⟨e1, e2, e3⟩ := needs_exclusive first.address roundProlSz delta inst
    simp only [count_filter_eq, List.mem_filter]
    refine ⟨?_, fun hh => e1 ⟨hh.1.2, hh.2.2⟩, fun hh => e2 ⟨hh.1.2, hh.2.2⟩,
      fun hh => e3 ⟨hh.1.2, hh.2.2⟩⟩
    by_cases a : needsEntry first.address roundProlSz delta inst = true
    · rw [if_pos a, if_neg (fun b => e1 ⟨a, b⟩), if_neg (fun c => e2 ⟨a, c⟩)]
      omega
    · by_cases b : needsReloc first.address roundProlSz delta inst = true
      · rw [if_neg a, if_pos b, if_neg (fun c => e3 ⟨b, c⟩)]
        omega
      · by_cases c : needsTranslation delta inst = true
        · rw [if_neg a, if_neg b, if_pos c]
          omega
        · rw [if_neg a, if_neg b, if_neg c]
          omega
  · obtain ⟨e1, e2, e3⟩ := needs_exclusive first.address roundProlSz delta inst
    rw [classify_eq]
    by_cases a : needsEntry first.address roundProlSz delta inst = true
    · rw [if_pos a, if_neg (fun b => e1 ⟨a, b⟩), if_neg (fun c => e2 ⟨a, c⟩)]
      simp only [List.length_append, List.length_cons, List.length_nil]
      omega
    · by_cases b : needsReloc first.address roundProlSz delta inst = true
      · rw [if_neg a, if_pos b, if_neg (fun c => e3 ⟨b, c⟩)]
        simp only [List.length_append, List.length_cons, List.length_nil]
        omega
      · by_cases c : needsTranslation delta inst = true
        · rw [if_neg a, if_neg b, if_pos c]
          simp only [List.length_append, List.length_cons, List.length_nil]
          omega
        · rw [if_neg a, if_neg b, if_neg c]
          simp only [List.length_append, List.length_nil]
          omega

/-- Witness for C20: the prologue of a data access, a jump leaving the window
and an instruction without displacement. -/
theorem buildRelocationList_sublists_witness :
    buildRelocationList
        (dataInst 0x1000 7 1 0x5000 :: [jmpInst 0x1007 2 1 0x900, plainInst 0x1009 1])
        10 300 [] [] []
      = some ⟨[jmpInst 0x1007 2 1 0x900], [], [dataInst 0x1000 7 1 0x5000]⟩ ∧
    [jmpInst 0x1007 2 1 0x900].Sublist
      (dataInst 0x1000 7 1 0x5000 :: [jmpInst 0x1007 2 1 0x900, plainInst 0x1009 1]) ∧
    [dataInst 0x1000 7 1 0x5000].Sublist
      (dataInst 0x1000 7 1 0x5000 :: [jmpInst 0x1007 2 1 0x900, plainInst 0x1009 1]) :=
  have hw := buildRelocationList_sublists (dataInst 0x1000 7 1 0x5000)
    [jmpInst 0x1007 2 1 0x900, plainInst 0x1009 1] 10 300
    ⟨[jmpInst 0x1007 2 1 0x900], [], [dataInst 0x1000 7 1 0x5000]⟩ (by decide)
  ⟨by decide, hw.1, hw.2.2.1⟩

end PLH
